import Mathlib

/-!
# liquers-core: shallow embedding and verification

A shallow embedding of the liquers-core Rust crate (`src/query.rs`,
`src/parse.rs`, `src/error.rs`, `src/value.rs`, `src/action_registry.rs`)
together with proofs about the claims of its specification.

Modelling conventions:
* Rust `String`/`&str` are Lean `String` (sequences of Unicode scalar values);
  `Position.offset` counts characters (the Rust source counts bytes; they agree
  on ASCII input, and every character class used by the grammar is ASCII).
* Rust's Unicode-aware `char::is_alphabetic`/`char::is_alphanumeric` are
  modelled by their ASCII restrictions `Char.isAlpha`/`Char.isAlphanum`.
* `usize`/`u32` are `Nat`; `i32` is `Int` (no claim exercises wrap-around);
  `f64` is `Float` (no claim exercises floating point).
* Rust panics (`panic!`, `assert!`) are modelled by `Except String` with the
  panic message as the error; fallible Rust functions return `Except Error`.
* The `nom` combinators used by `parse.rs` are embedded with their
  distinction between recoverable errors (`Err::Error`) and unrecoverable
  failures (`Err::Failure`, produced by `cut`).  The `Display` text of a raw
  `nom` error (interpolated into `Error::General` by the top-level parse
  functions) is abstracted by `nomErrDisplay`; no claim depends on its text.
-/

namespace Liquers

/-- `Position` from `src/query.rs` (offset/line/column of a parsed token). -/
structure Position where
  offset : Nat
  line : Nat
  column : Nat
deriving DecidableEq, Repr

/-- `Position::unknown` from `src/query.rs`. -/
def Position.unknown : Position := { offset := 0, line := 0, column := 0 }

/-- `ActionParameter` from `src/query.rs`. -/
inductive ActionParameter where
  | string (s : String) (pos : Position)
  | link (s : String) (pos : Position)
deriving DecidableEq, Repr

/-- `ActionParameter::new` from `src/query.rs`. -/
def ActionParameter.new (parameter : String) : ActionParameter :=
  ActionParameter.string parameter Position.unknown

/-- `ActionParameter::new_parsed` from `src/query.rs`. -/
def ActionParameter.new_parsed (parameter : String) (position : Position) : ActionParameter :=
  ActionParameter.string parameter position

/-- `ActionParameter::to_string` from `src/query.rs`. -/
def ActionParameter.to_string : ActionParameter → String
  | .string s _ => s
  | .link s _ => s

/-- `ActionParameter::encode` from `src/query.rs`; the `Link` arm is
`panic!("Link not supported yet")`, modelled as an `Except.error` carrying the
panic message. -/
def ActionParameter.encode : ActionParameter → Except String String
  | .string s _ => Except.ok s
  | .link _ _ => Except.error "Link not supported yet"

/-- `ActionRequest` from `src/query.rs`. -/
structure ActionRequest where
  name : String
  position : Position
  parameters : List ActionParameter
deriving DecidableEq, Repr

/-- `ActionRequest::encode` from `src/query.rs` (errors model panics escaping
from `ActionParameter::encode`). -/
def ActionRequest.encode (a : ActionRequest) : Except String String :=
  if a.parameters.isEmpty then
    Except.ok a.name
  else do
    let parts ← a.parameters.mapM ActionParameter.encode
    Except.ok (a.name ++ "-" ++ String.intercalate "-" parts)

/-- `SegmentHeader` from `src/query.rs`. -/
structure SegmentHeader where
  name : String
  level : Nat
  position : Position
  parameters : List ActionParameter
deriving DecidableEq, Repr

/-- `SegmentHeader::new_parsed_minimal` from `src/query.rs`. -/
def SegmentHeader.new_parsed_minimal (level : Nat) (position : Position) : SegmentHeader :=
  { name := "", level := level, position := position, parameters := [] }

/-- `SegmentHeader::new_parsed_from_action_request` from `src/query.rs`. -/
def SegmentHeader.new_parsed_from_action_request (level : Nat) (position : Position)
    (action_request : ActionRequest) : SegmentHeader :=
  { name := action_request.name, level := level, position := position,
    parameters := action_request.parameters }

/-- `SegmentHeader::encode` from `src/query.rs`.  The two `assert!`s and the
panic escaping from `ActionParameter::encode` are modelled as `Except.error`
with the corresponding panic messages, in the order the Rust code reaches
them: the `level` assertion first, then (only when the parameter list is
non-empty) the `name` assertion, then the per-parameter encoding. -/
def SegmentHeader.encode (h : SegmentHeader) : Except String String :=
  if ¬ (h.level ≥ 1) then
    Except.error "assertion failed: self.level >= 1"
  else
    let head := String.mk (List.replicate h.level '-') ++ h.name
    if h.parameters.isEmpty then
      Except.ok head
    else if ¬ (h.name.length > 0) then
      Except.error "assertion failed: self.name.len()>0"
    else do
      let parts ← h.parameters.mapM ActionParameter.encode
      Except.ok (head ++ String.join (parts.map (fun p => "-" ++ p)))

/-- `QuerySegment` from `src/query.rs`. -/
structure QuerySegment where
  header : Option SegmentHeader
  query : List ActionRequest
deriving DecidableEq, Repr

/-- `QuerySegment::new_from` from `src/query.rs`. -/
def QuerySegment.new_from (header : Option SegmentHeader) (query : List ActionRequest) :
    QuerySegment :=
  { header := header, query := query }

/-- `QuerySegment::encode` from `src/query.rs`: the action path is encoded
first (so a panic there precedes the header's assertions), then the optional
header is prepended. -/
def QuerySegment.encode (s : QuerySegment) : Except String String := do
  let parts ← s.query.mapM ActionRequest.encode
  let query := String.intercalate "/" parts
  match s.header with
  | some header => do
      let h ← header.encode
      if query.isEmpty then Except.ok h
      else Except.ok (h ++ "/" ++ query)
  | none => Except.ok query

/-- `Query` from `src/query.rs`. -/
structure Query where
  segments : List QuerySegment
deriving DecidableEq, Repr

/-- `Query::encode` from `src/query.rs`. -/
def Query.encode (q : Query) : Except String String := do
  let parts ← q.segments.mapM QuerySegment.encode
  Except.ok (String.intercalate "/" parts)

/-- `Error` from `src/error.rs`. -/
inductive Error where
  | argumentNotSpecified
  | actionNotRegistered (message : String)
  | parseError (message : String) (position : Position)
  | parameterError (message : String) (position : Position)
  | conversionError (message : String)
  | serializationError (message : String) (format : String)
  | general (message : String)
deriving DecidableEq, Repr

/-! ## Structural equivalence of Syntax Model values

"Structurally equivalent" in the specification means: equal up to the
`Position` fields (positions are re-computed by every parse). -/

/-- Equality of `ActionParameter`s ignoring positions. -/
def ActionParameter.equiv : ActionParameter → ActionParameter → Bool
  | .string s _, .string t _ => s = t
  | .link s _, .link t _ => s = t
  | _, _ => false

/-- Pointwise `ActionParameter.equiv` on lists. -/
def paramListEquiv (xs ys : List ActionParameter) : Bool :=
  match xs, ys with
  | [], [] => true
  | x :: xs, y :: ys => x.equiv y && paramListEquiv xs ys
  | _, _ => false

/-- Equality of `ActionRequest`s ignoring positions. -/
def ActionRequest.equiv (a b : ActionRequest) : Bool :=
  a.name = b.name && paramListEquiv a.parameters b.parameters

/-- Pointwise `ActionRequest.equiv` on lists. -/
def reqListEquiv (xs ys : List ActionRequest) : Bool :=
  match xs, ys with
  | [], [] => true
  | x :: xs, y :: ys => x.equiv y && reqListEquiv xs ys
  | _, _ => false

/-- Equality of `SegmentHeader`s ignoring positions. -/
def SegmentHeader.equiv (a b : SegmentHeader) : Bool :=
  a.name = b.name && a.level = b.level && paramListEquiv a.parameters b.parameters

/-- Equality of `QuerySegment`s ignoring positions. -/
def QuerySegment.equiv (a b : QuerySegment) : Bool :=
  (match a.header, b.header with
   | none, none => true
   | some x, some y => x.equiv y
   | _, _ => false) && reqListEquiv a.query b.query

/-- Pointwise `QuerySegment.equiv` on lists. -/
def segListEquiv (xs ys : List QuerySegment) : Bool :=
  match xs, ys with
  | [], [] => true
  | x :: xs, y :: ys => x.equiv y && segListEquiv xs ys
  | _, _ => false

/-- Equality of `Query`s ignoring positions. -/
def Query.equiv (a b : Query) : Bool :=
  segListEquiv a.segments b.segments

/-! ## Percent decoding and UTF-8

`parameter` in `src/parse.rs` runs the collected text through
`percent_decode_str(..).decode_utf8()` (the `percent_encoding` crate followed
by strict UTF-8 validation).  Both steps are byte-level, so we model UTF-8
encoding/decoding of characters explicitly. -/

/-- ASCII hex digit (`u8::is_ascii_hexdigit` as used by the
`percent_encoding` crate when scanning `%HH`). -/
def isHexByte (b : Nat) : Bool :=
  (48 ≤ b && b ≤ 57) || (97 ≤ b && b ≤ 102) || (65 ≤ b && b ≤ 70)

/-- Numeric value of an ASCII hex digit byte. -/
def hexByteVal (b : Nat) : Nat :=
  if 48 ≤ b && b ≤ 57 then b - 48
  else if 97 ≤ b && b ≤ 102 then b - 87
  else if 65 ≤ b && b ≤ 70 then b - 55
  else 0

/-- UTF-8 encoding of one Unicode scalar value, as a list of byte values. -/
def utf8EncodeChar (c : Char) : List Nat :=
  let n := c.toNat
  if n < 0x80 then [n]
  else if n < 0x800 then [0xC0 + n / 64, 0x80 + n % 64]
  else if n < 0x10000 then [0xE0 + n / 4096, 0x80 + (n / 64) % 64, 0x80 + n % 64]
  else [0xF0 + n / 262144, 0x80 + (n / 4096) % 64, 0x80 + (n / 64) % 64, 0x80 + n % 64]

/-- UTF-8 encoding of a character list. -/
def utf8Encode (l : List Char) : List Nat :=
  (l.map utf8EncodeChar).flatten

/-- `percent_decode` from the `percent_encoding` crate: every `%` followed by
two ASCII hex digits becomes the denoted byte; any other byte (including a
`%` without two hex digits, which the crate passes through unchanged) is
copied. -/
def percentDecodeRec : Nat → List Nat → List Nat
  | 0, l => l
  | _ + 1, [] => []
  | fuel + 1, b :: rest =>
      if b = 37 then
        match rest with
        | h1 :: h2 :: rest2 =>
            if isHexByte h1 && isHexByte h2 then
              (16 * hexByteVal h1 + hexByteVal h2) :: percentDecodeRec fuel rest2
            else
              37 :: percentDecodeRec fuel rest
        | _ => 37 :: percentDecodeRec fuel rest
      else b :: percentDecodeRec fuel rest

/-- See `percentDecodeRec`; every step consumes at least one byte, so the
fuel is always sufficient. -/
def percentDecodeBytes (l : List Nat) : List Nat :=
  percentDecodeRec (l.length + 1) l

/-- Is `b` a UTF-8 continuation byte (`10xxxxxx`)? -/
def isCont (b : Nat) : Bool := 0x80 ≤ b && b < 0xC0

/-- Decode one UTF-8 scalar starting at byte `b` with following bytes
`rest`; returns the character and the bytes remaining after the sequence.
Strict (as `str::from_utf8` / `PercentDecode::decode_utf8`): rejects
truncated sequences, stray continuation bytes, overlong encodings and
surrogate code points. -/
def utf8DecodeOne (b : Nat) (rest : List Nat) : Option (Char × List Nat) :=
  if b < 0x80 then some (Char.ofNat b, rest)
  else if 0xC2 ≤ b && b ≤ 0xDF then
    match rest with
    | b2 :: rest2 =>
        if isCont b2 then
          some (Char.ofNat ((b - 0xC0) * 64 + (b2 - 0x80)), rest2)
        else none
    | _ => none
  else if 0xE0 ≤ b && b ≤ 0xEF then
    match rest with
    | b2 :: b3 :: rest3 =>
        let lo2 := if b = 0xE0 then 0xA0 else 0x80
        let hi2 := if b = 0xED then 0x9F else 0xBF
        if (lo2 ≤ b2 && b2 ≤ hi2) && isCont b3 then
          some (Char.ofNat ((b - 0xE0) * 4096 + (b2 - 0x80) * 64 + (b3 - 0x80)), rest3)
        else none
    | _ => none
  else if 0xF0 ≤ b && b ≤ 0xF4 then
    match rest with
    | b2 :: b3 :: b4 :: rest4 =>
        let lo2 := if b = 0xF0 then 0x90 else 0x80
        let hi2 := if b = 0xF4 then 0x8F else 0xBF
        if (lo2 ≤ b2 && b2 ≤ hi2) && isCont b3 && isCont b4 then
          some (Char.ofNat ((b - 0xF0) * 262144 + (b2 - 0x80) * 4096 + (b3 - 0x80) * 64
            + (b4 - 0x80)), rest4)
        else none
    | _ => none
  else none

/-- Fuel-indexed UTF-8 decoding loop; every step consumes at least the lead
byte, so fuel `length + 1` is always sufficient. -/
def utf8DecodeRec : Nat → List Nat → Option (List Char)
  | 0, l => if l.isEmpty then some [] else none
  | _ + 1, [] => some []
  | fuel + 1, b :: rest =>
      match utf8DecodeOne b rest with
      | some (c, rest2) => (utf8DecodeRec fuel rest2).map (fun cs => c :: cs)
      | none => none

/-- Strict UTF-8 decoding of a byte list. -/
def utf8Decode (l : List Nat) : Option (List Char) :=
  utf8DecodeRec (l.length + 1) l

/-- `percent_decode_str(s).decode_utf8()` from `src/parse.rs` line 78. -/
def percentDecodeUtf8 (s : String) : Option String :=
  (utf8Decode (percentDecodeBytes (utf8Encode s.data))).map String.mk

/-! ## The `nom` parsing layer

`src/parse.rs` parses `Span = LocatedSpan<&str>` values.  A span is modelled
as the consumed input (in reverse) plus the remaining input, which determines
the `nom_locate` offset/line/column.  `PResult` mirrors `nom::IResult` with
its two error levels: `err` is a recoverable `nom::Err::Error` and `fail` an
unrecoverable `nom::Err::Failure` (as produced by `cut`). -/

/-- A `nom_locate` span: `before` is the already-consumed input, reversed;
`rest` is the remaining input. -/
structure Span where
  before : List Char
  rest : List Char
deriving DecidableEq, Repr

/-- The span covering a whole input string (offset 0). -/
def Span.initial (s : String) : Span := { before := [], rest := s.data }

/-- `location_offset` (character-counted, see the module comment). -/
def Span.offset (s : Span) : Nat := s.before.length

/-- Advance a span by `n` characters. -/
def Span.advance (s : Span) (n : Nat) : Span :=
  { before := (s.rest.take n).reverse ++ s.before, rest := s.rest.drop n }

/-- `impl From<Span> for Position` from `src/parse.rs`: `location_offset`,
`location_line` (1 + newlines before the fragment) and `get_utf8_column`
(1 + characters since the last newline). -/
def Span.pos (s : Span) : Position :=
  { offset := s.before.length,
    line := 1 + s.before.count '\n',
    column := 1 + (s.before.takeWhile (fun c => c ≠ '\n')).length }

/-- `nom::IResult`: success with remaining span, recoverable error
(`nom::Err::Error`) or unrecoverable failure (`nom::Err::Failure`). -/
inductive PResult (α : Type) where
  | ok (s : Span) (a : α)
  | err (s : Span)
  | fail (s : Span)
deriving DecidableEq, Repr

/-- A parser in the embedding of `nom`. -/
def NomP (α : Type) : Type := Span → PResult α

/-- `nom::bytes::complete::tag`. -/
def tagP (t : List Char) : NomP (List Char) := fun s =>
  if t.isPrefixOf s.rest then PResult.ok (s.advance t.length) t else PResult.err s

/-- `nom::bytes::complete::take_while`. -/
def takeWhileP (p : Char → Bool) : NomP (List Char) := fun s =>
  let tk := s.rest.takeWhile p
  PResult.ok (s.advance tk.length) tk

/-- `nom::bytes::complete::take_while1`. -/
def takeWhile1P (p : Char → Bool) : NomP (List Char) := fun s =>
  let tk := s.rest.takeWhile p
  if tk.isEmpty then PResult.err s else PResult.ok (s.advance tk.length) tk

/-- `nom::bytes::complete::take_while_m_n m n p`: up to `n` leading characters
satisfying `p`, at least `m` required. -/
def takeWhileMN (m n : Nat) (p : Char → Bool) : NomP (List Char) := fun s =>
  let tk := (s.rest.takeWhile p).take n
  if tk.length < m then PResult.err s else PResult.ok (s.advance tk.length) tk

/-- `nom::character::complete::digit1` (ASCII digits). -/
def digit1P : NomP (List Char) := takeWhile1P Char.isDigit

/-- `nom::combinator::cut`: turn a recoverable error into a failure. -/
def cutP (p : NomP α) : NomP α := fun s =>
  match p s with
  | PResult.err s' => PResult.fail s'
  | r => r

/-- `nom::combinator::opt`: recoverable errors yield `none` without consuming;
failures propagate. -/
def optP (p : NomP α) : NomP (Option α) := fun s =>
  match p s with
  | PResult.ok s' a => PResult.ok s' (some a)
  | PResult.err _ => PResult.ok s none
  | PResult.fail s' => PResult.fail s'

/-- `nom::branch::alt` over a list of alternatives: recoverable errors try the
next alternative, failures abort the whole choice. -/
def altP (ps : List (NomP α)) : NomP α := fun s =>
  match ps with
  | [] => PResult.err s
  | p :: rest =>
    match p s with
    | PResult.ok s' a => PResult.ok s' a
    | PResult.fail s' => PResult.fail s'
    | PResult.err s' =>
      match rest with
      | [] => PResult.err s'
      | _ => altP rest s

/-- `nom::sequence::pair`. -/
def pairP (p : NomP α) (q : NomP β) : NomP (α × β) := fun s =>
  match p s with
  | PResult.ok s' a =>
    match q s' with
    | PResult.ok s'' b => PResult.ok s'' (a, b)
    | PResult.err s'' => PResult.err s''
    | PResult.fail s'' => PResult.fail s''
  | PResult.err s' => PResult.err s'
  | PResult.fail s' => PResult.fail s'

/-- Loop of `nom::multi::many0` (fuel-indexed; the fuel is always sufficient
because every iteration consumes at least one character, and `nom` rejects a
non-consuming iteration with a `Many0` error). -/
def many0Rec (p : NomP α) : Nat → Span → PResult (List α)
  | 0, s => PResult.fail s
  | Nat.succ fuel, s =>
    match p s with
    | PResult.err _ => PResult.ok s []
    | PResult.fail s' => PResult.fail s'
    | PResult.ok s' a =>
      if s'.rest.length = s.rest.length then PResult.err s'
      else
        match many0Rec p fuel s' with
        | PResult.ok s'' as => PResult.ok s'' (a :: as)
        | PResult.err s'' => PResult.err s''
        | PResult.fail s'' => PResult.fail s''

/-- `nom::multi::many0`. -/
def many0P (p : NomP α) : NomP (List α) := fun s =>
  many0Rec p (s.rest.length + 1) s

/-- `nom::multi::many1_count`. -/
def many1CountP (p : NomP α) : NomP Nat := fun s =>
  match many0P p s with
  | PResult.ok s' l => if l.isEmpty then PResult.err s else PResult.ok s' l.length
  | PResult.err s' => PResult.err s'
  | PResult.fail s' => PResult.fail s'

/-- Loop of `nom::multi::separated_list` (nom 5): after a parsed element at
`s`, try `sep`; a recoverable error of `sep`, or of the element parser after
`sep`, ends the list at `s` (the separator is left unconsumed); failures
propagate; a non-consuming round is a `SeparatedList` error. -/
def sepListRec (sep : NomP β) (p : NomP α) : Nat → Span → List α → PResult (List α)
  | 0, s, _ => PResult.fail s
  | Nat.succ fuel, s, acc =>
    match sep s with
    | PResult.err _ => PResult.ok s acc
    | PResult.fail s' => PResult.fail s'
    | PResult.ok s1 _ =>
      if s1.rest.length = s.rest.length then PResult.err s1
      else
        match p s1 with
        | PResult.err _ => PResult.ok s acc
        | PResult.fail s' => PResult.fail s'
        | PResult.ok s2 a =>
          if s2.rest.length = s1.rest.length then PResult.err s2
          else sepListRec sep p fuel s2 (acc ++ [a])

/-- `nom::multi::separated_list` (nom 5): possibly-empty separated list. -/
def separatedListP (sep : NomP β) (p : NomP α) : NomP (List α) := fun s =>
  match p s with
  | PResult.err _ => PResult.ok s []
  | PResult.fail s' => PResult.fail s'
  | PResult.ok s1 a =>
    if s1.rest.length = s.rest.length then PResult.err s1
    else sepListRec sep p (s1.rest.length + 1) s1 [a]

/-- `nom::multi::separated_nonempty_list` (nom 5): at least one element. -/
def separatedNonemptyListP (sep : NomP β) (p : NomP α) : NomP (List α) := fun s =>
  match p s with
  | PResult.err s' => PResult.err s'
  | PResult.fail s' => PResult.fail s'
  | PResult.ok s1 a =>
    if s1.rest.length = s.rest.length then PResult.err s1
    else sepListRec sep p (s1.rest.length + 1) s1 [a]

/-! ## The grammar of `src/parse.rs`

Character classes: `is_alphabetic`/`is_alphanumeric` are modelled by their
ASCII restrictions (module comment); `is_digit(16)` is the ASCII hex digit
test. -/

/-- `c.is_alphabetic() || c == '_'` from `identifier`. -/
def isIdentStart (c : Char) : Bool := c.isAlpha || c = '_'

/-- `c.is_alphanumeric() || c == '_'` from `identifier`/`parameter_text`. -/
def isIdentCont (c : Char) : Bool := c.isAlphanum || c = '_'

/-- `c.is_digit(16)` from `percent_encoding`. -/
def isHexChar (c : Char) : Bool :=
  c.isDigit || ('a' ≤ c && c ≤ 'f') || ('A' ≤ c && c ≤ 'F')

/-- `identifier` from `src/parse.rs`: a letter-or-underscore run followed by
an alphanumeric-or-underscore run, concatenated. -/
def identifier : NomP String := fun s =>
  match takeWhile1P isIdentStart s with
  | PResult.ok s1 a =>
    match takeWhileP isIdentCont s1 with
    | PResult.ok s2 b => PResult.ok s2 (String.mk a ++ String.mk b)
    | PResult.err s2 => PResult.err s2
    | PResult.fail s2 => PResult.fail s2
  | PResult.err s1 => PResult.err s1
  | PResult.fail s1 => PResult.fail s1

/-- `parameter_text` from `src/parse.rs`. -/
def parameter_text : NomP String := fun s =>
  match takeWhile1P isIdentCont s with
  | PResult.ok s1 a => PResult.ok s1 (String.mk a)
  | PResult.err s1 => PResult.err s1
  | PResult.fail s1 => PResult.fail s1

/-- `percent_encoding` from `src/parse.rs`: `%` then (committed) exactly two
hex digits; the escape text is kept as `%HH` for the later percent-decoding
pass. -/
def percent_encoding : NomP String := fun s =>
  match tagP ['%'] s with
  | PResult.ok s1 _ =>
    match cutP (takeWhileMN 2 2 isHexChar) s1 with
    | PResult.ok s2 hex => PResult.ok s2 (String.mk ('%' :: hex))
    | PResult.err s2 => PResult.err s2
    | PResult.fail s2 => PResult.fail s2
  | PResult.err s1 => PResult.err s1
  | PResult.fail s1 => PResult.fail s1

/-- `tilde_entity` from `src/parse.rs`: a (second) `~` decoding to `~`. -/
def tilde_entity : NomP String := fun s =>
  match tagP ['~'] s with
  | PResult.ok s1 _ => PResult.ok s1 "~"
  | PResult.err s1 => PResult.err s1
  | PResult.fail s1 => PResult.fail s1

/-- `minus_entity` from `src/parse.rs`: `_` decoding to `-`. -/
def minus_entity : NomP String := fun s =>
  match tagP ['_'] s with
  | PResult.ok s1 _ => PResult.ok s1 "-"
  | PResult.err s1 => PResult.err s1
  | PResult.fail s1 => PResult.fail s1

/-- `negative_number_entity` from `src/parse.rs`: a digit run decoding to
`-` followed by the digits. -/
def negative_number_entity : NomP String := fun s =>
  match digit1P s with
  | PResult.ok s1 number => PResult.ok s1 (String.mk ('-' :: number))
  | PResult.err s1 => PResult.err s1
  | PResult.fail s1 => PResult.fail s1

/-- `parameter_entity` from `src/parse.rs`: `~` then a committed (`cut`)
choice of `tilde_entity`, `minus_entity`, `negative_number_entity`. -/
def parameter_entity : NomP String := fun s =>
  match tagP ['~'] s with
  | PResult.ok s1 _ =>
    cutP (altP [tilde_entity, minus_entity, negative_number_entity]) s1
  | PResult.err s1 => PResult.err s1
  | PResult.fail s1 => PResult.fail s1

/-- `parameter` from `src/parse.rs`: zero-or-more runs/entities/escapes,
joined and percent-decoded; a decoding error is a hard failure
(`nom::Err::Failure` with `ErrorKind::Escaped`). -/
def parameter : NomP ActionParameter := fun s =>
  let position := s.pos
  match many0P (altP [parameter_text, parameter_entity, percent_encoding]) s with
  | PResult.ok s1 par =>
    match percentDecodeUtf8 (String.join par) with
    | some decoded => PResult.ok s1 (ActionParameter.new_parsed decoded position)
    | none => PResult.fail s1
  | PResult.err s1 => PResult.err s1
  | PResult.fail s1 => PResult.fail s1

/-- `parse_action` from `src/parse.rs`: an identifier followed by
`-parameter` pairs. -/
def parse_action : NomP ActionRequest := fun s =>
  let position := s.pos
  match identifier s with
  | PResult.ok s1 name =>
    match many0P (pairP (tagP ['-']) parameter) s1 with
    | PResult.ok s2 p =>
      PResult.ok s2 { name := name, position := position, parameters := p.map Prod.snd }
    | PResult.err s2 => PResult.err s2
    | PResult.fail s2 => PResult.fail s2
  | PResult.err s1 => PResult.err s1
  | PResult.fail s1 => PResult.fail s1

/-- `parse_action_path` from `src/parse.rs`. -/
def parse_action_path : NomP (List ActionRequest) :=
  separatedListP (tagP ['/']) parse_action

/-- `parse_action_path_nonempty` from `src/parse.rs`. -/
def parse_action_path_nonempty : NomP (List ActionRequest) :=
  separatedNonemptyListP (tagP ['/']) parse_action

/-- `parse_segment_indicator` from `src/parse.rs`: the number of leading
`-`. -/
def parse_segment_indicator : NomP Nat :=
  many1CountP (tagP ['-'])

/-- `parse_segment_header` from `src/parse.rs`. -/
def parse_segment_header : NomP SegmentHeader := fun s =>
  let position := s.pos
  match parse_segment_indicator s with
  | PResult.ok s1 level =>
    match optP parse_action s1 with
    | PResult.ok s2 (some request) =>
      PResult.ok s2 (SegmentHeader.new_parsed_from_action_request level position request)
    | PResult.ok s2 none =>
      PResult.ok s2 (SegmentHeader.new_parsed_minimal level position)
    | PResult.err s2 => PResult.err s2
    | PResult.fail s2 => PResult.fail s2
  | PResult.err s1 => PResult.err s1
  | PResult.fail s1 => PResult.fail s1

/-- `parse_segment_with_header` from `src/parse.rs`. -/
def parse_segment_with_header : NomP QuerySegment := fun s =>
  match parse_segment_header s with
  | PResult.ok s1 header =>
    match optP (pairP (tagP ['/']) parse_action_path) s1 with
    | PResult.ok s2 (some (_, query)) =>
      PResult.ok s2 (QuerySegment.new_from (some header) query)
    | PResult.ok s2 none =>
      PResult.ok s2 (QuerySegment.new_from (some header) [])
    | PResult.err s2 => PResult.err s2
    | PResult.fail s2 => PResult.fail s2
  | PResult.err s1 => PResult.err s1
  | PResult.fail s1 => PResult.fail s1

/-- `parse_segment_without_header` from `src/parse.rs`. -/
def parse_segment_without_header : NomP QuerySegment := fun s =>
  match parse_action_path_nonempty s with
  | PResult.ok s1 query => PResult.ok s1 (QuerySegment.new_from none query)
  | PResult.err s1 => PResult.err s1
  | PResult.fail s1 => PResult.fail s1

/-- `parse_segment` from `src/parse.rs`: header form first, headerless form
second. -/
def parse_segment : NomP QuerySegment :=
  altP [parse_segment_with_header, parse_segment_without_header]

/-- `parse_query` from `src/parse.rs` (the span-level segmented-grammar
parser). -/
def parse_query : NomP Query := fun s =>
  match separatedListP (tagP ['/']) parse_segment s with
  | PResult.ok s1 segments => PResult.ok s1 { segments := segments }
  | PResult.err s1 => PResult.err s1
  | PResult.fail s1 => PResult.fail s1

/-- The `Display` text of a raw `nom` error, as interpolated by
`format!("Parse error {}", e)` in `src/parse.rs`.  The exact rendering of
`nom`'s debug output is abstracted; no claim depends on this text. -/
def nomErrDisplay (hard : Bool) (s : Span) : String :=
  "Parse error " ++ (if hard then "Parsing Failure: " else "Parsing Error: ")
    ++ "(offset " ++ toString s.offset ++ ": '" ++ String.mk s.rest ++ "')"

/-- `parse_query_simple` from `src/parse.rs`: run `parse_action_path`; a raw
`nom` error becomes `Error::General`; leftover input becomes
`Error::ParseError` carrying the remaining text and its position. -/
def parse_query_simple (query : String) : Except Error (List ActionRequest) :=
  match parse_action_path (Span.initial query) with
  | PResult.ok s1 path =>
    if s1.rest.length > 0 then
      Except.error (Error.parseError
        ("Can't parse query completely: '" ++ String.mk s1.rest ++ "'") s1.pos)
    else
      Except.ok path
  | PResult.err s1 => Except.error (Error.general (nomErrDisplay false s1))
  | PResult.fail s1 => Except.error (Error.general (nomErrDisplay true s1))

/-- `parse` from `src/parse.rs`: like `parse_query_simple` but with the
segmented grammar. -/
def parse (query : String) : Except Error Query :=
  match parse_query (Span.initial query) with
  | PResult.ok s1 q =>
    if s1.rest.length > 0 then
      Except.error (Error.parseError
        ("Can't parse query completely: '" ++ String.mk s1.rest ++ "'") s1.pos)
    else
      Except.ok q
  | PResult.err s1 => Except.error (Error.general (nomErrDisplay false s1))
  | PResult.fail s1 => Except.error (Error.general (nomErrDisplay true s1))

/-! ## Values, coercion, adapters, registry, evaluator

From `src/value.rs` and `src/action_registry.rs`.  Only the pieces the claims
exercise are embedded: the generic value type with its `i32` conversions, the
`TryParameterFrom` instances, the `Function1`/`Function2` adapters, the
registry and `Environment::eval`. -/

/-- `Display for Position` from `src/query.rs`. -/
def Position.display (p : Position) : String :=
  if p.line = 0 then "(unknown position)"
  else if p.line > 1 then "line " ++ toString p.line ++ ", position " ++ toString p.column
  else "position " ++ toString p.column

/-- `Display for Error` from `src/error.rs`. -/
def Error.display : Error → String
  | .argumentNotSpecified => "Argument not specified"
  | .actionNotRegistered message => "Error: " ++ message
  | .parseError message position => "Error: " ++ message ++ " " ++ position.display
  | .parameterError message position => "Error: " ++ message ++ " " ++ position.display
  | .conversionError message => "Error: " ++ message
  | .serializationError message _ => "Error: " ++ message
  | .general message => "Error: " ++ message

/-- `Value` from `src/value.rs` (`i32` as `Int`, `f64` as `Float`; no claim
exercises the `real` payload). -/
inductive Value where
  | none
  | text (s : String)
  | integer (n : Int)
  | real (x : Float)
  | bool (b : Bool)

/-- `impl TryFrom<Value> for i32` from `src/value.rs`. -/
def valueTryIntoI32 : Value → Except Error Int
  | .none => Except.error (Error.conversionError "Can't convert None to integer")
  | .text _ => Except.error (Error.conversionError "Can't convert Text to integer")
  | .bool _ => Except.error (Error.conversionError "Can't convert Bool to integer")
  | .integer x => Except.ok x
  | .real _ => Except.error (Error.conversionError "Can't convert real number to integer")

/-- `impl From<i32> for Value` from `src/value.rs`. -/
def valueFromI32 (x : Int) : Value := Value.integer x

/-- `i32::from_str` as invoked by `text.parse()` in `src/query.rs`:
an optional sign, then one or more ASCII digits, within the `i32` range. -/
def rustParseI32 (text : String) : Option Int :=
  let core : Int → List Char → Option Int := fun sign ds =>
    if ds.isEmpty then Option.none
    else if ds.all Char.isDigit then
      let n : Nat := ds.foldl (fun acc c => acc * 10 + (c.toNat - 48)) 0
      let v : Int := sign * (n : Int)
      if -2147483648 ≤ v ∧ v ≤ 2147483647 then some v else Option.none
    else Option.none
  match text.data with
  | '+' :: ds => core 1 ds
  | '-' :: ds => core (-1) ds
  | ds => core 1 ds

/-- `impl TryParameterFrom for i32` from `src/query.rs`. -/
def i32TryParameterFrom (text : String) : Except String Int :=
  match rustParseI32 text with
  | some v => Except.ok v
  | Option.none => Except.error ("Can't parse '" ++ text ++ "' as integer")

/-- `impl TryParameterFrom for String` from `src/query.rs`. -/
def stringTryParameterFrom (text : String) : Except String String :=
  Except.ok text

/-- `TryActionParametersInto::try_parameters_into` for `ActionParametersSlice`
from `src/query.rs`, generic over the `TryParameterFrom` coercion of the
target type.  The mutated slice is returned alongside the value (state
passing); the unused `env` argument (`&mut ()` at every call site) is
omitted. -/
def try_parameters_into (coerce : String → Except String τ) :
    List ActionParameter → Except Error (τ × List ActionParameter)
  | [] => Except.error Error.argumentNotSpecified
  | ActionParameter.string x position :: rest =>
      match coerce x with
      | Except.error message => Except.error (Error.parameterError message position)
      | Except.ok v => Except.ok (v, rest)
  | ActionParameter.link _ _ :: _ => Except.error (Error.general "Not implemented")

/-- The uniform `CallableAction::call_action` contract over value type `T`
(trait objects are modelled as plain functions). -/
def CallableActionFn (T : Type) : Type :=
  T → List ActionParameter → Except Error T

/-- `impl CallableAction<T> for Function1<In,Out>` from
`src/action_registry.rs`: fallible input conversion (whose `Display`ed error
is interpolated into a `ConversionError`), then the native call, then the
infallible output conversion. -/
def function1Call (tryIntoIn : T → Except String In) (outInto : Out → T)
    (f : In → Out) : CallableActionFn T := fun input _arguments =>
  match tryIntoIn input with
  | Except.error e =>
      Except.error (Error.conversionError ("Input argument conversion failed; " ++ e))
  | Except.ok a => Except.ok (outInto (f a))

/-- `impl CallableAction<T> for Function2<In1,In2,Out>` from
`src/action_registry.rs`: the first native argument converts from the input
value, the second is pulled from a fresh parameter cursor over `arguments`
(consuming one parameter), coercion errors surfacing unchanged. -/
def function2Call (tryIntoIn1 : T → Except String In1)
    (coerce : String → Except String In2) (outInto : Out → T)
    (f : In1 → In2 → Out) : CallableActionFn T := fun input arguments =>
  match tryIntoIn1 input with
  | Except.error e =>
      Except.error (Error.conversionError ("Input argument conversion failed; " ++ e))
  | Except.ok a1 =>
      match try_parameters_into coerce arguments with
      | Except.error e => Except.error e
      | Except.ok (a2, _) => Except.ok (outInto (f a1 a2))

/-- `Value → i32` conversion with its error `Display`ed, as consumed by the
adapters' `map_err(|e| ... format!("...; {}", e))`. -/
def valueTryIntoI32Disp (v : Value) : Except String Int :=
  match valueTryIntoI32 v with
  | Except.error e => Except.error e.display
  | Except.ok x => Except.ok x

/-- `HashMapActionRegistry` from `src/action_registry.rs`: a two-level
namespace → name map, modelled as association lists (lookup by key; the
claims never depend on iteration order). -/
structure HashMapActionRegistry (T : Type) where
  table : List (String × List (String × CallableActionFn T))

/-- `HashMap::insert`: overwrite the binding of `k` or append a new one. -/
def assocInsert (k : String) (v : α) : List (String × α) → List (String × α)
  | [] => [(k, v)]
  | (k', v') :: rest =>
      if k' = k then (k, v) :: rest else (k', v') :: assocInsert k v rest

/-- `HashMapActionRegistry::new`. -/
def HashMapActionRegistry.new (T : Type) : HashMapActionRegistry T := { table := [] }

/-- `HashMapActionRegistry::register_callable_action`:
`entry(ns).or_insert(HashMap::new())` then `insert(name, action)`. -/
def HashMapActionRegistry.register_callable_action (reg : HashMapActionRegistry T)
    (ns name : String) (action : CallableActionFn T) : HashMapActionRegistry T :=
  match reg.table.lookup ns with
  | some nsReg => { table := assocInsert ns (assocInsert name action nsReg) reg.table }
  | Option.none => { table := assocInsert ns [(name, action)] reg.table }

/-- `HashMapActionRegistry::call` from `src/action_registry.rs`: resolve the
namespace (miss: `ActionNotRegistered` with a "no such namespace" message),
then the name (miss: `ActionNotRegistered` with the plain message), then
delegate to the resolved action. -/
def HashMapActionRegistry.call (reg : HashMapActionRegistry T) (ns name : String)
    (input : T) (arguments : List ActionParameter) : Except Error T :=
  match reg.table.lookup ns with
  | Option.none =>
      Except.error (Error.actionNotRegistered
        ("Action " ++ name ++ " not registered in namespace " ++ ns
          ++ "; no such namespace"))
  | some nsReg =>
      match nsReg.lookup name with
      | Option.none =>
          Except.error (Error.actionNotRegistered
            ("Action " ++ name ++ " not registered in namespace " ++ ns))
      | some action => action input arguments

/-- The `for` loop of `Environment::eval` for `HashMapActionRegistry`: thread
the value through the actions, aborting at the first error (`?`). -/
def evalFold (reg : HashMapActionRegistry T) : T → List ActionRequest → Except Error T
  | value, [] => Except.ok value
  | value, action_request :: rest =>
      match reg.call "root" action_request.name value action_request.parameters with
      | Except.error e => Except.error e
      | Except.ok v => evalFold reg v rest

/-- `Environment::eval` for `HashMapActionRegistry` from
`src/action_registry.rs`.  The source calls `crate::parse::parse_query`, the
string-level flat action-path parser, and iterates the resulting
`ActionRequest`s; in `src/parse.rs` that parser is `parse_query_simple`
(the span-level `parse_query` there returns a segmented `Query`, which the
loop could not consume; the crate's own `test_eval` fixes the flat-path
reading). -/
def HashMapActionRegistry.eval (reg : HashMapActionRegistry T) (input : T)
    (query : String) : Except Error T :=
  match parse_query_simple query with
  | Except.error e => Except.error e
  | Except.ok path => evalFold reg input path

/-! ## Concrete registries from the specification's examples -/

/-- `square(x) = x*x` wrapped as an arity-1 action over `Value`
(`Function1(Box::new(|x:i32| x*x))` from `test_eval`). -/
def squareAction : CallableActionFn Value :=
  function1Call valueTryIntoI32Disp valueFromI32 (fun x => x * x)

/-- `add(x, y) = x + y` wrapped as an arity-2 action over `Value`
(`Function2(Box::new(|x:i32,y:i32| x+y))` from `test_eval`). -/
def addAction : CallableActionFn Value :=
  function2Call valueTryIntoI32Disp i32TryParameterFrom valueFromI32 (fun x y => x + y)

/-- The registry of `test_eval`: `square` and `add` in the root namespace. -/
def sqAddRegistry : HashMapActionRegistry Value :=
  ((HashMapActionRegistry.new Value).register_callable_action "root" "square" squareAction
    ).register_callable_action "root" "add" addAction

/-- A registry with a single registered action `known` (an action that
succeeds on integer input) and nothing else, for the fail-fast example. -/
def knownRegistry : HashMapActionRegistry Value :=
  (HashMapActionRegistry.new Value).register_callable_action "root" "known" squareAction

/-! ## Escape well-formedness

A left-to-right scan of query text that skips complete escapes: it returns
`false` exactly when the text contains a `~` that begins an escape not
continued by `~`, `_` or a digit run, or a `%` not followed by exactly two
hex digits (the malformed-escape condition of the specification; the `~` or
`%` closing or inside a well-formed escape does not begin one).  After a
`~` + digit the remaining digits of the run are scanned as ordinary
characters, which is equivalent since a digit never begins an escape.
`ewfStep` processes one character (with lookahead into the rest), returning
the remaining text or `none` at a malformed escape. -/
def ewfStep (c : Char) (rest : List Char) : Option (List Char) :=
  if c = '~' then
    match rest with
    | d :: rest2 => if d = '~' || d = '_' || d.isDigit then some rest2 else none
    | [] => none
  else if c = '%' then
    match rest with
    | d1 :: d2 :: rest2 => if isHexChar d1 && isHexChar d2 then some rest2 else none
    | _ => none
  else some rest

/-- Fuel-indexed loop of the escape-well-formedness scan; every step consumes
at least one character, so fuel `length + 1` is always sufficient. -/
def ewfRec : Nat → List Char → Bool
  | 0, l => l.isEmpty
  | _ + 1, [] => true
  | fuel + 1, c :: rest =>
      match ewfStep c rest with
      | some rest2 => ewfRec fuel rest2
      | none => false

/-- Escape well-formedness of query text (see `ewfStep`). -/
def ewf (l : List Char) : Bool := ewfRec (l.length + 1) l

/-- A parser that, whenever it succeeds, has consumed an escape-well-formed
chunk of the input. -/
def ConsumesEwf (p : NomP α) : Prop :=
  ∀ s s' a, p s = PResult.ok s' a → ∃ X, s.rest = X ++ s'.rest ∧ ewf X = true

/-- Does a string match the `identifier` production (`(letter | _)` then
`(letter | digit | _)*`, non-empty)? -/
def isIdentName (s : String) : Bool :=
  match s.data with
  | [] => false
  | c :: cs => isIdentStart c && cs.all isIdentCont

/-- Is this a `String`-variant parameter (the only variant `encode`
supports)? -/
def isStringParam : ActionParameter → Bool
  | .string _ _ => true
  | .link _ _ => false

/-- Is this a `String`-variant parameter whose text is a (possibly empty) run
of parameter characters (`letter | digit | _`), i.e. needs no escaping? -/
def isPlainParam : ActionParameter → Bool
  | .string s _ => s.data.all isIdentCont
  | .link _ _ => false

/-- An `ActionRequest` in the image of the round-trip-friendly fragment:
identifier name, plain `String` parameters. -/
def plainRequest (a : ActionRequest) : Bool :=
  isIdentName a.name && a.parameters.all isPlainParam

/-- The malformed-continuation condition after a `~` that begins an escape:
not `~`, not `_`, and not a digit. -/
def tildeMalformed : List Char → Bool
  | [] => true
  | c :: _ => !(c = '~' || c = '_' || c.isDigit)

/-- The malformed-continuation condition after a `%`: not followed by two hex
digits. -/
def pctMalformed : List Char → Bool
  | c1 :: c2 :: _ => !(isHexChar c1 && isHexChar c2)
  | _ => true

/-! ## Concrete Syntax Model values used by counterexamples -/

/-- An action request `a` with the single parameter `-123` — equivalent to
what the parser itself builds from the query text `a-~123`. -/
def c1Request : ActionRequest :=
  { name := "a", position := Position.unknown,
    parameters := [ActionParameter.string "-123" Position.unknown] }

/-- The headerless segment holding `c1Request`. -/
def c1Segment : QuerySegment := { header := none, query := [c1Request] }

/-- A segment header with `level = 1`, non-empty name and a `Link`
parameter: both `encode` assertions hold for it, yet `encode` panics. -/
def c10Header : SegmentHeader :=
  { name := "a", level := 1, position := Position.unknown,
    parameters := [ActionParameter.link "x" Position.unknown] }

/-- The character sequence `-p1-p2-…` that the encoder emits for a parameter
list (specification-side helper for round-trip statements). -/
def encParamsChars (ps : List ActionParameter) : List Char :=
  (ps.map (fun p => '-' :: p.to_string.data)).flatten

/-- The character sequence `name-p1-…` that the encoder emits for one
action. -/
def encActionChars (a : ActionRequest) : List Char :=
  a.name.data ++ encParamsChars a.parameters

/-- The character sequence `act1/act2/…` that the encoder emits for an
action path. -/
def encPathChars : List ActionRequest → List Char
  | [] => []
  | a :: rest => encActionChars a ++ (rest.map (fun x => '/' :: encActionChars x)).flatten

/-! # Theorems -/

/-- Encoding a list of `String`-variant parameters succeeds and yields their
texts. -/
theorem mapM_encode_of_strings (ps : List ActionParameter)
    (h : ps.all isStringParam = true) :
    ps.mapM ActionParameter.encode = Except.ok (ps.map ActionParameter.to_string) := by
  induction ps with
  | nil => rfl
  | cons p ps ih =>
    simp only [List.all_cons, Bool.and_eq_true] at h
    cases p with
    | string s pos =>
        simp only [List.mapM_cons, ih h.2, ActionParameter.encode, ActionParameter.to_string,
          List.map_cons]
        rfl
    | link s pos => simp [isStringParam] at h

/-- C5: parsing a parameter token decodes tilde-entities and percent-escapes
to literal characters: `decode("~~") = "~"`, `decode("~_") = "-"`,
`decode("~123") = "-123"`, `decode("ab~~cd") = "ab~cd"`,
`decode("%21") = "!"`. -/
theorem C5_parameter_decoding :
    parameter (Span.initial "~~")
      = PResult.ok { before := ['~', '~'], rest := [] }
          (ActionParameter.string "~" { offset := 0, line := 1, column := 1 }) ∧
    parameter (Span.initial "~_")
      = PResult.ok { before := ['_', '~'], rest := [] }
          (ActionParameter.string "-" { offset := 0, line := 1, column := 1 }) ∧
    parameter (Span.initial "~123")
      = PResult.ok { before := ['3', '2', '1', '~'], rest := [] }
          (ActionParameter.string "-123" { offset := 0, line := 1, column := 1 }) ∧
    parameter (Span.initial "ab~~cd")
      = PResult.ok { before := ['d', 'c', '~', '~', 'b', 'a'], rest := [] }
          (ActionParameter.string "ab~cd" { offset := 0, line := 1, column := 1 }) ∧
    parameter (Span.initial "%21")
      = PResult.ok { before := ['1', '2', '%'], rest := [] }
          (ActionParameter.string "!" { offset := 0, line := 1, column := 1 }) := by
  refine ⟨?_, ?_, ?_, ?_, ?_⟩ <;> rfl

/-- C9: the encoder rejects every `Link` parameter — `encode` of a `Link`
panics with "Link not supported yet" and never returns an encoded string. -/
theorem C9_link_encode_rejected (s : String) (pos : Position) :
    ActionParameter.encode (ActionParameter.link s pos)
      = Except.error "Link not supported yet" := rfl

/-- C10 (counterexample): `c10Header` has `level = 1 ≥ 1`, a non-empty name
and a non-empty parameter list, so it satisfies both assertion conditions,
yet `encode` does not return a string: it panics with the (non-assertion)
message "Link not supported yet" raised by its `Link` parameter. -/
theorem C10_counterexample :
    c10Header.level = 1 ∧ c10Header.name = "a" ∧ c10Header.parameters.length = 1 ∧
    c10Header.encode = Except.error "Link not supported yet" :=
  ⟨rfl, rfl, rfl, rfl⟩

/-- C10 (amended): `SegmentHeader::encode` asserts `level ≥ 1` and, when the
parameter list is non-empty, asserts the name is non-empty; a header
violating either condition panics via the corresponding assertion, and a
header satisfying both conditions whose parameters are all `String`-variant
encodes to the level separators followed by the name and the `-`-joined
parameters. -/
theorem C10_encode_partiality (h : SegmentHeader) :
    (h.level = 0 → h.encode = Except.error "assertion failed: self.level >= 1") ∧
    (1 ≤ h.level → h.parameters ≠ [] → h.name.length = 0 →
      h.encode = Except.error "assertion failed: self.name.len()>0") ∧
    (1 ≤ h.level → (h.parameters ≠ [] → 0 < h.name.length) →
      h.parameters.all isStringParam = true →
      h.encode = Except.ok (String.mk (List.replicate h.level '-') ++ h.name
        ++ String.join (h.parameters.map (fun p => "-" ++ p.to_string)))) := by
  refine ⟨?_, ?_, ?_⟩
  · intro hl
    simp [SegmentHeader.encode, hl]
  · intro hl hp hn
    have hne : ¬ h.parameters.isEmpty := by
      cases hps : h.parameters with
      | nil => exact absurd hps hp
      | cons a l => simp [hps]
    simp [SegmentHeader.encode, hl, hne, hn]
  · intro hl hname hs
    unfold SegmentHeader.encode
    rw [if_neg (not_not_intro hl)]
    cases hps : h.parameters with
    | nil =>
        simp [String.join]
    | cons p ps =>
        have hpos : 0 < h.name.length := hname (by simp [hps])
        rw [hps] at hs
        have hmap := mapM_encode_of_strings (p :: ps) hs
        simp only [List.isEmpty_cons, Bool.false_eq_true, if_false]
        rw [if_neg (not_not_intro hpos), hmap]
        show Except.ok _ = Except.ok _
        simp [List.map_map, Function.comp_def]

/-- C10 (witness for the amended theorem): the three cases at concrete
headers — a level-0 header hits the level assertion, a level-1 nameless
header with a parameter hits the name assertion, and `-abc-d-ef`-shaped
data encodes successfully. -/
theorem C10_encode_partiality_witness :
    SegmentHeader.encode
        { name := "x", level := 0, position := Position.unknown, parameters := [] }
      = Except.error "assertion failed: self.level >= 1" ∧
    SegmentHeader.encode
        { name := "", level := 1, position := Position.unknown,
          parameters := [ActionParameter.new "d"] }
      = Except.error "assertion failed: self.name.len()>0" ∧
    SegmentHeader.encode
        { name := "abc", level := 2, position := Position.unknown,
          parameters := [ActionParameter.new "d", ActionParameter.new "ef"] }
      = Except.ok "--abc-d-ef" := by
  refine ⟨?_, ?_, ?_⟩
  · exact (C10_encode_partiality _).1 rfl
  · exact (C10_encode_partiality _).2.1 (by decide) (by decide) rfl
  · have h3 := (C10_encode_partiality
      { name := "abc", level := 2, position := Position.unknown,
        parameters := [ActionParameter.new "d", ActionParameter.new "ef"] }).2.2
      (by decide) (fun _ => by decide) (by decide)
    rw [h3]
    rfl

/-- C7: registry resolution — an unknown namespace fails with
`ActionNotRegistered` and the namespace-miss message, a known namespace with
an unknown name fails with `ActionNotRegistered` and the (different)
name-miss message, and when both resolve the call delegates to the resolved
action's invoke. -/
theorem C7_registry_resolution (T : Type) (reg : HashMapActionRegistry T)
    (ns name : String) (input : T) (arguments : List ActionParameter) :
    (reg.table.lookup ns = Option.none →
      reg.call ns name input arguments = Except.error (Error.actionNotRegistered
        ("Action " ++ name ++ " not registered in namespace " ++ ns
          ++ "; no such namespace"))) ∧
    (∀ nsReg, reg.table.lookup ns = some nsReg → nsReg.lookup name = Option.none →
      reg.call ns name input arguments = Except.error (Error.actionNotRegistered
        ("Action " ++ name ++ " not registered in namespace " ++ ns))) ∧
    (∀ nsReg action, reg.table.lookup ns = some nsReg → nsReg.lookup name = some action →
      reg.call ns name input arguments = action input arguments) ∧
    ("Action " ++ name ++ " not registered in namespace " ++ ns ++ "; no such namespace"
      ≠ "Action " ++ name ++ " not registered in namespace " ++ ns) := by
  refine ⟨?_, ?_, ?_, ?_⟩
  · intro hns
    simp [HashMapActionRegistry.call, hns]
  · intro nsReg hns hname
    simp [HashMapActionRegistry.call, hns, hname]
  · intro nsReg action hns hname
    simp [HashMapActionRegistry.call, hns, hname]
  · intro h
    have hlen := congrArg String.length h
    simp only [String.length_append] at hlen
    have h19 : ("; no such namespace" : String).length = 19 := rfl
    rw [h19] at hlen
    omega

/-- C7 (witness): concrete resolutions against `knownRegistry`. -/
theorem C7_registry_resolution_witness :
    knownRegistry.call "nope" "f" (Value.integer 3) []
      = Except.error (Error.actionNotRegistered
          "Action f not registered in namespace nope; no such namespace") ∧
    knownRegistry.call "root" "unknown" (Value.integer 3) []
      = Except.error (Error.actionNotRegistered
          "Action unknown not registered in namespace root") ∧
    knownRegistry.call "root" "known" (Value.integer 3) []
      = squareAction (Value.integer 3) [] := by
  refine ⟨?_, ?_, ?_⟩
  · exact (C7_registry_resolution Value knownRegistry "nope" "f" (Value.integer 3) []).1 rfl
  · exact (C7_registry_resolution Value knownRegistry "root" "unknown" (Value.integer 3)
      []).2.1 [("known", squareAction)] rfl rfl
  · exact (C7_registry_resolution Value knownRegistry "root" "known" (Value.integer 3)
      []).2.2.1 [("known", squareAction)] squareAction rfl rfl

/-- C8: the parameter cursor fails with `ArgumentNotSpecified` exactly when
the list is exhausted, fails with a `ParameterError` carrying the
parameter's position when coercion fails, advances past exactly one
parameter on success, and the arity-2 adapter reads exactly one parameter
(its result does not depend on the rest of the list). -/
theorem C8_parameter_cursor (τ T In1 Out : Type) (coerce : String → Except String τ)
    (args : List ActionParameter) :
    (try_parameters_into coerce args = Except.error Error.argumentNotSpecified ↔
      args = []) ∧
    (∀ x pos rest message, args = ActionParameter.string x pos :: rest →
      coerce x = Except.error message →
      try_parameters_into coerce args = Except.error (Error.parameterError message pos)) ∧
    (∀ x pos rest v, args = ActionParameter.string x pos :: rest →
      coerce x = Except.ok v →
      try_parameters_into coerce args = Except.ok (v, rest)) ∧
    (∀ (tryIntoIn1 : T → Except String In1) (outInto : Out → T) (f : In1 → τ → Out)
        (input : T) (a : ActionParameter) (rest rest' : List ActionParameter),
      function2Call tryIntoIn1 coerce outInto f input (a :: rest)
        = function2Call tryIntoIn1 coerce outInto f input (a :: rest')) := by
  refine ⟨?_, ?_, ?_, ?_⟩
  · constructor
    · intro h
      cases args with
      | nil => rfl
      | cons a rest =>
          cases a with
          | string x pos =>
              simp only [try_parameters_into] at h
              cases hc : coerce x with
              | error m => rw [hc] at h; exact absurd h (by simp)
              | ok v => rw [hc] at h; exact absurd h (by simp)
          | link x pos =>
              simp only [try_parameters_into] at h
              exact absurd h (by simp)
    · intro h; rw [h]; rfl
  · intro x pos rest message hargs hc
    rw [hargs]
    simp [try_parameters_into, hc]
  · intro x pos rest v hargs hc
    rw [hargs]
    simp [try_parameters_into, hc]
  · intro tryIntoIn1 outInto f input a rest rest'
    cases h1 : tryIntoIn1 input with
    | error e => simp [function2Call, h1]
    | ok a1 =>
        cases a with
        | string x pos =>
            cases hc : coerce x with
            | error m => simp [function2Call, h1, try_parameters_into, hc]
            | ok v => simp [function2Call, h1, try_parameters_into, hc]
        | link x pos => simp [function2Call, h1, try_parameters_into]

/-- C8 (witness): the cursor on concrete parameter lists with the `i32`
coercion, and the arity-2 adapter ignoring everything after its first
parameter. -/
theorem C8_parameter_cursor_witness :
    try_parameters_into i32TryParameterFrom []
      = Except.error Error.argumentNotSpecified ∧
    try_parameters_into i32TryParameterFrom [ActionParameter.new "abc"]
      = Except.error (Error.parameterError "Can't parse 'abc' as integer"
          Position.unknown) ∧
    try_parameters_into i32TryParameterFrom
        [ActionParameter.new "123", ActionParameter.new "234"]
      = Except.ok (123, [ActionParameter.new "234"]) ∧
    function2Call valueTryIntoI32Disp i32TryParameterFrom valueFromI32
        (fun x y => x + y) (Value.integer 1) [ActionParameter.new "2", ActionParameter.new "9"]
      = function2Call valueTryIntoI32Disp i32TryParameterFrom valueFromI32
        (fun x y => x + y) (Value.integer 1) [ActionParameter.new "2"] := by
  refine ⟨?_, ?_, ?_, ?_⟩
  · exact (C8_parameter_cursor Int Value Int Int i32TryParameterFrom []).1.mpr rfl
  · exact (C8_parameter_cursor Int Value Int Int i32TryParameterFrom
      [ActionParameter.new "abc"]).2.1 "abc" Position.unknown [] _ rfl rfl
  · exact (C8_parameter_cursor Int Value Int Int i32TryParameterFrom
      [ActionParameter.new "123", ActionParameter.new "234"]).2.2.1 "123" Position.unknown
      [ActionParameter.new "234"] 123 rfl rfl
  · exact (C8_parameter_cursor Int Value Int Int i32TryParameterFrom
      [ActionParameter.new "2", ActionParameter.new "9"]).2.2.2 valueTryIntoI32Disp
      valueFromI32 (fun x y => x + y) (Value.integer 1) (ActionParameter.new "2")
      [ActionParameter.new "9"] []

/-- The evaluator's loop is a monadic left fold over the action list. -/
theorem evalFold_eq_foldlM (reg : HashMapActionRegistry T) (l : List ActionRequest) (v : T) :
    evalFold reg v l
      = l.foldlM (fun value ar => reg.call "root" ar.name value ar.parameters) v := by
  induction l generalizing v with
  | nil => rfl
  | cons a l ih =>
      simp only [evalFold, List.foldlM_cons]
      cases reg.call "root" a.name v a.parameters with
      | error e => rfl
      | ok w => exact ih w

/-- C2: with `square` (arity 1) and `add` (arity 2) registered in the root
namespace, `eval(2, "square/add-10") = 14`; in general `eval` parses the
query with the flat action-path grammar and left-folds the initial value
through the actions, resolving each name in the fixed root namespace. -/
theorem C2_eval_composition :
    sqAddRegistry.eval (Value.integer 2) "square/add-10" = Except.ok (Value.integer 14) ∧
    ∀ (T : Type) (reg : HashMapActionRegistry T) (input : T) (query : String),
      reg.eval input query = (parse_query_simple query).bind
        (fun path => path.foldlM
          (fun value ar => reg.call "root" ar.name value ar.parameters) input) := by
  constructor
  · rfl
  · intro T reg input query
    unfold HashMapActionRegistry.eval
    cases parse_query_simple query with
    | error e => rfl
    | ok path => exact evalFold_eq_foldlM reg path input

/-- C3: evaluation is fail-fast — `eval(v, "known/unknown-1")` with `known`
registered and `unknown` not returns `ActionNotRegistered` (for every
initial integer, never surfacing the intermediate value); a parse error is
returned verbatim; and the first dispatch error aborts the chain verbatim,
whatever actions follow. -/
theorem C3_fail_fast :
    (∀ v : Int, knownRegistry.eval (Value.integer v) "known/unknown-1"
        = Except.error (Error.actionNotRegistered
            "Action unknown not registered in namespace root")) ∧
    (∀ (T : Type) (reg : HashMapActionRegistry T) (input : T) (query : String) (e : Error),
      parse_query_simple query = Except.error e →
      reg.eval input query = Except.error e) ∧
    (∀ (T : Type) (reg : HashMapActionRegistry T) (value w : T)
        (pre : List ActionRequest) (r : ActionRequest) (post : List ActionRequest)
        (e : Error),
      evalFold reg value pre = Except.ok w →
      reg.call "root" r.name w r.parameters = Except.error e →
      evalFold reg value (pre ++ r :: post) = Except.error e) := by
  refine ⟨?_, ?_, ?_⟩
  · intro v; rfl
  · intro T reg input query e h
    unfold HashMapActionRegistry.eval
    rw [h]
  · intro T reg value w pre r post e hpre hcall
    induction pre generalizing value with
    | nil =>
        simp only [evalFold] at hpre
        injection hpre with h
        subst h
        simp only [List.nil_append, evalFold, hcall]
    | cons a l ih =>
        simp only [evalFold, List.cons_append] at hpre ⊢
        cases hc : reg.call "root" a.name value a.parameters with
        | error e2 => rw [hc] at hpre; cases hpre
        | ok v2 =>
            rw [hc] at hpre
            exact ih v2 hpre

/-- C3 (witness): the fail-fast theorem at concrete inputs — the
`known/unknown-1` example, a concrete malformed query whose parse error is
returned verbatim by `eval`, and a concrete chain aborted at its second
action with a third action pending. -/
theorem C3_fail_fast_witness :
    knownRegistry.eval (Value.integer 3) "known/unknown-1"
      = Except.error (Error.actionNotRegistered
          "Action unknown not registered in namespace root") ∧
    sqAddRegistry.eval (Value.integer 2) "a-~x"
      = Except.error (Error.general "Parse error Parsing Failure: (offset 3: 'x')") ∧
    evalFold knownRegistry (Value.integer 3)
        ([⟨"known", Position.unknown, []⟩] ++
          (⟨"unknown", Position.unknown, []⟩ : ActionRequest) ::
            [⟨"known", Position.unknown, []⟩])
      = Except.error (Error.actionNotRegistered
          "Action unknown not registered in namespace root") := by
  refine ⟨C3_fail_fast.1 3, ?_, ?_⟩
  · exact C3_fail_fast.2.1 Value sqAddRegistry (Value.integer 2) "a-~x"
      (Error.general "Parse error Parsing Failure: (offset 3: 'x')") rfl
  · exact C3_fail_fast.2.2 Value knownRegistry (Value.integer 3) (Value.integer 9)
      [⟨"known", Position.unknown, []⟩] ⟨"unknown", Position.unknown, []⟩
      [⟨"known", Position.unknown, []⟩]
      (Error.actionNotRegistered "Action unknown not registered in namespace root")
      rfl rfl

/-- C6: each top-level parse function succeeds exactly when the underlying
grammar run succeeds and consumes the entire input; an unconsumed remainder
yields a `ParseError` whose message carries the remaining text and which
carries the remainder's position. -/
theorem C6_full_consumption (query : String) :
    ((∃ l, parse_query_simple query = Except.ok l) ↔
      (∃ s1 l, parse_action_path (Span.initial query) = PResult.ok s1 l ∧ s1.rest = [])) ∧
    ((∃ q, parse query = Except.ok q) ↔
      (∃ s1 q, parse_query (Span.initial query) = PResult.ok s1 q ∧ s1.rest = [])) ∧
    (∀ s1 l, parse_action_path (Span.initial query) = PResult.ok s1 l →
      s1.rest.length > 0 →
      parse_query_simple query = Except.error (Error.parseError
        ("Can't parse query completely: '" ++ String.mk s1.rest ++ "'") s1.pos)) ∧
    (∀ s1 q, parse_query (Span.initial query) = PResult.ok s1 q →
      s1.rest.length > 0 →
      parse query = Except.error (Error.parseError
        ("Can't parse query completely: '" ++ String.mk s1.rest ++ "'") s1.pos)) := by
  refine ⟨?_, ?_, ?_, ?_⟩
  · constructor
    · rintro ⟨l, hl⟩
      cases hr : parse_action_path (Span.initial query) with
      | ok s1 l2 =>
          refine ⟨s1, l2, rfl, ?_⟩
          cases hrest : s1.rest with
          | nil => rfl
          | cons a t =>
              have hpos : s1.rest.length > 0 := by simp [hrest]
              simp [parse_query_simple, hr, hpos] at hl
      | err s1 => simp [parse_query_simple, hr] at hl
      | fail s1 => simp [parse_query_simple, hr] at hl
    · rintro ⟨s1, l, hr, hrest⟩
      exact ⟨l, by simp [parse_query_simple, hr, hrest]⟩
  · constructor
    · rintro ⟨q, hq⟩
      cases hr : parse_query (Span.initial query) with
      | ok s1 q2 =>
          refine ⟨s1, q2, rfl, ?_⟩
          cases hrest : s1.rest with
          | nil => rfl
          | cons a t =>
              have hpos : s1.rest.length > 0 := by simp [hrest]
              simp [parse, hr, hpos] at hq
      | err s1 => simp [parse, hr] at hq
      | fail s1 => simp [parse, hr] at hq
    · rintro ⟨s1, q, hr, hrest⟩
      exact ⟨q, by simp [parse, hr, hrest]⟩
  · intro s1 l hr hpos
    simp [parse_query_simple, hr, hpos]
  · intro s1 q hr hpos
    simp [parse, hr, hpos]

/-- C6 (witness): a remainder-producing input `x y` for both top-level parse
functions (message carrying the remainder ` y` at offset 1), and a
fully-consumed input succeeding. -/
theorem C6_full_consumption_witness :
    parse_query_simple "x y" = Except.error (Error.parseError
      "Can't parse query completely: ' y'" { offset := 1, line := 1, column := 2 }) ∧
    parse "x y" = Except.error (Error.parseError
      "Can't parse query completely: ' y'" { offset := 1, line := 1, column := 2 }) ∧
    (∃ l, parse_query_simple "abc-def" = Except.ok l) := by
  refine ⟨?_, ?_, ?_⟩
  · exact (C6_full_consumption "x y").2.2.1 { before := ['x'], rest := [' ', 'y'] }
      [⟨"x", { offset := 0, line := 1, column := 1 }, []⟩] rfl (by decide)
  · exact (C6_full_consumption "x y").2.2.2 { before := ['x'], rest := [' ', 'y'] }
      { segments := [⟨none, [⟨"x", { offset := 0, line := 1, column := 1 }, []⟩]⟩] }
      rfl (by decide)
  · exact (C6_full_consumption "abc-def").1.mpr
      ⟨{ before := "abc-def".data.reverse, rest := [] },
        [⟨"abc", { offset := 0, line := 1, column := 1 },
          [ActionParameter.string "def" { offset := 4, line := 1, column := 5 }]⟩],
        rfl, rfl⟩

/-! ## Exact-consumption lemmas for the grammar

These compute each parser's behaviour on an input of the shape
`consumed ++ rest` where `consumed` is drawn from the encoder's output. -/

theorem Span.advance_append (before a r : List Char) :
    Span.advance ⟨before, a ++ r⟩ a.length = ⟨a.reverse ++ before, r⟩ := by
  simp [Span.advance, List.take_left, List.drop_left]

theorem takeWhile_append_all (p : Char → Bool) (a r : List Char)
    (ha : ∀ c ∈ a, p c = true) (hr : ∀ c, r.head? = some c → p c = false) :
    (a ++ r).takeWhile p = a := by
  induction a with
  | nil =>
      cases r with
      | nil => rfl
      | cons c t => simp [List.takeWhile_cons, hr c rfl]
  | cons c t ih =>
      have hc := ha c (List.mem_cons_self c t)
      simp only [List.cons_append, List.takeWhile_cons, hc, if_true]
      rw [ih (fun x hx => ha x (List.mem_cons_of_mem c hx))]

theorem takeWhile1P_exact (p : Char → Bool) (before a r : List Char) (hne : a ≠ [])
    (ha : ∀ c ∈ a, p c = true) (hr : ∀ c, r.head? = some c → p c = false) :
    takeWhile1P p ⟨before, a ++ r⟩ = PResult.ok ⟨a.reverse ++ before, r⟩ a := by
  have htw : (({ before := before, rest := a ++ r } : Span).rest).takeWhile p = a :=
    takeWhile_append_all p a r ha hr
  simp only [takeWhile1P, htw]
  rw [if_neg (by simpa [List.isEmpty_iff] using hne)]
  rw [show ({ before := before, rest := a ++ r } : Span).advance a.length
    = ⟨a.reverse ++ before, r⟩ from Span.advance_append before a r]

theorem takeWhileP_exact (p : Char → Bool) (before a r : List Char)
    (ha : ∀ c ∈ a, p c = true) (hr : ∀ c, r.head? = some c → p c = false) :
    takeWhileP p ⟨before, a ++ r⟩ = PResult.ok ⟨a.reverse ++ before, r⟩ a := by
  have htw : (({ before := before, rest := a ++ r } : Span).rest).takeWhile p = a :=
    takeWhile_append_all p a r ha hr
  simp only [takeWhileP, htw]
  rw [show ({ before := before, rest := a ++ r } : Span).advance a.length
    = ⟨a.reverse ++ before, r⟩ from Span.advance_append before a r]

theorem isIdentStart_imp_cont (c : Char) (h : isIdentStart c = true) :
    isIdentCont c = true := by
  simp only [isIdentStart, Bool.or_eq_true, decide_eq_true_eq] at h
  rcases h with h | h
  · simp [isIdentCont, Char.isAlphanum, h]
  · simp [isIdentCont, h]

theorem identifier_exact (before : List Char) (c : Char) (cs r : List Char)
    (hc : isIdentStart c = true) (hcs : ∀ x ∈ cs, isIdentCont x = true)
    (hr : ∀ x, r.head? = some x → isIdentCont x = false) :
    identifier ⟨before, (c :: cs) ++ r⟩
      = PResult.ok ⟨(c :: cs).reverse ++ before, r⟩ (String.mk (c :: cs)) := by
  have hsplit : (c :: cs).takeWhile isIdentStart ++ (c :: cs).dropWhile isIdentStart
      = c :: cs := List.takeWhile_append_dropWhile isIdentStart (c :: cs)
  set a := (c :: cs).takeWhile isIdentStart with hadef
  set b := (c :: cs).dropWhile isIdentStart with hbdef
  have hane : a ≠ [] := by
    rw [hadef]
    simp [List.takeWhile_cons, hc]
  have hamem : ∀ x ∈ a, isIdentStart x = true := by
    intro x hx
    exact List.mem_takeWhile_imp hx
  have hbmem : ∀ x ∈ b, isIdentCont x = true := by
    intro x hx
    have hxcs : x ∈ cs := by
      have hb2 : b = cs.dropWhile isIdentStart := by
        rw [hbdef, List.dropWhile_cons_of_pos hc]
      rw [hb2] at hx
      exact (List.dropWhile_sublist isIdentStart).mem hx
    exact hcs x hxcs
  have hbr : ∀ x, (b ++ r).head? = some x → isIdentStart x = false := by
    intro x hx
    cases hb : b with
    | nil =>
        rw [hb, List.nil_append] at hx
        have := hr x hx
        cases hstart : isIdentStart x with
        | false => rfl
        | true => exact absurd (isIdentStart_imp_cont x hstart) (by simp [this])
    | cons y t =>
        rw [hb] at hx
        simp only [List.cons_append, List.head?_cons, Option.some.injEq] at hx
        subst hx
        have := List.head?_dropWhile_not isIdentStart (c :: cs)
        rw [← hbdef, hb] at this
        simpa using this
  have hrr : ∀ x, r.head? = some x → isIdentCont x = false := hr
  have h1 : takeWhile1P isIdentStart ⟨before, (c :: cs) ++ r⟩
      = PResult.ok ⟨a.reverse ++ before, b ++ r⟩ a := by
    have := takeWhile1P_exact isIdentStart before a (b ++ r) hane hamem hbr
    rw [← List.append_assoc, hsplit] at this
    exact this
  have h2 : takeWhileP isIdentCont ⟨a.reverse ++ before, b ++ r⟩
      = PResult.ok ⟨b.reverse ++ (a.reverse ++ before), r⟩ b :=
    takeWhileP_exact isIdentCont (a.reverse ++ before) b r hbmem hrr
  simp only [identifier, h1, h2]
  have hrev : b.reverse ++ (a.reverse ++ before) = (c :: cs).reverse ++ before := by
    rw [← List.append_assoc, ← List.reverse_append, hsplit]
  rw [hrev]
  have hmk : String.mk a ++ String.mk b = String.mk (c :: cs) := by
    show String.mk (a ++ b) = String.mk (c :: cs)
    rw [hsplit]
  rw [hmk]

theorem isIdentCont_range (c : Char) (h : isIdentCont c = true) :
    (48 ≤ c.toNat ∧ c.toNat ≤ 57) ∨ (65 ≤ c.toNat ∧ c.toNat ≤ 90) ∨
    (97 ≤ c.toNat ∧ c.toNat ≤ 122) ∨ c.toNat = 95 := by
  simp only [isIdentCont, Char.isAlphanum, Char.isAlpha, Char.isUpper, Char.isLower,
    Char.isDigit, Bool.or_eq_true, Bool.and_eq_true, decide_eq_true_eq] at h
  rcases h with ((⟨h1, h2⟩ | ⟨h1, h2⟩) | ⟨h1, h2⟩) | h
  · exact Or.inr (Or.inl ⟨UInt32.le_toNat_of_le (by norm_num) h1,
      UInt32.toNat_le_of_le (by norm_num) h2⟩)
  · exact Or.inr (Or.inr (Or.inl ⟨UInt32.le_toNat_of_le (by norm_num) h1,
      UInt32.toNat_le_of_le (by norm_num) h2⟩))
  · exact Or.inl ⟨UInt32.le_toNat_of_le (by norm_num) h1,
      UInt32.toNat_le_of_le (by norm_num) h2⟩
  · subst h; exact Or.inr (Or.inr (Or.inr rfl))

theorem isIdentCont_ascii (c : Char) (h : isIdentCont c = true) : c.toNat < 128 := by
  rcases isIdentCont_range c h with ⟨h1, h2⟩ | ⟨h1, h2⟩ | ⟨h1, h2⟩ | h1 <;> omega

theorem isIdentCont_toNat_ne_37 (c : Char) (h : isIdentCont c = true) : c.toNat ≠ 37 := by
  rcases isIdentCont_range c h with ⟨h1, h2⟩ | ⟨h1, h2⟩ | ⟨h1, h2⟩ | h1 <;> omega

theorem utf8EncodeChar_ascii (c : Char) (h : c.toNat < 128) :
    utf8EncodeChar c = [c.toNat] := by
  simp [utf8EncodeChar, h]

theorem utf8Encode_ascii (l : List Char) (h : ∀ c ∈ l, c.toNat < 128) :
    utf8Encode l = l.map Char.toNat := by
  induction l with
  | nil => rfl
  | cons c cs ih =>
      simp only [utf8Encode, List.map_cons, List.flatten_cons,
        utf8EncodeChar_ascii c (h c (List.mem_cons_self c cs))]
      rw [show (cs.map utf8EncodeChar).flatten = utf8Encode cs from rfl,
        ih (fun x hx => h x (List.mem_cons_of_mem c hx))]
      rfl

theorem percentDecodeRec_no37 (fuel : Nat) :
    ∀ l : List Nat, l.length < fuel → (∀ b ∈ l, b ≠ 37) →
      percentDecodeRec fuel l = l := by
  induction fuel with
  | zero => intro l hl; omega
  | succ n ih =>
      intro l hl hb
      cases l with
      | nil => rfl
      | cons b rest =>
          have hbne : b ≠ 37 := hb b (List.mem_cons_self b rest)
          simp only [percentDecodeRec, if_neg hbne]
          rw [ih rest (by simpa using Nat.lt_of_succ_lt_succ hl)
            (fun x hx => hb x (List.mem_cons_of_mem b hx))]

theorem percentDecodeBytes_no37 (l : List Nat) (h : ∀ b ∈ l, b ≠ 37) :
    percentDecodeBytes l = l :=
  percentDecodeRec_no37 (l.length + 1) l (Nat.lt_succ_self _) h

theorem utf8DecodeRec_ascii (fuel : Nat) :
    ∀ l : List Char, l.length < fuel → (∀ c ∈ l, c.toNat < 128) →
      utf8DecodeRec fuel (l.map Char.toNat) = some l := by
  induction fuel with
  | zero => intro l hl; omega
  | succ n ih =>
      intro l hl hc
      cases l with
      | nil => rfl
      | cons c cs =>
          have hch := hc c (List.mem_cons_self c cs)
          simp only [List.map_cons, utf8DecodeRec, utf8DecodeOne, hch, if_true,
            ih cs (by simpa using Nat.lt_of_succ_lt_succ hl)
              (fun x hx => hc x (List.mem_cons_of_mem c hx)),
            Option.map_some, Char.ofNat_toNat]
          rfl

theorem utf8Decode_ascii (l : List Char) (h : ∀ c ∈ l, c.toNat < 128) :
    utf8Decode (l.map Char.toNat) = some l := by
  show utf8DecodeRec ((l.map Char.toNat).length + 1) (l.map Char.toNat) = some l
  rw [List.length_map]
  exact utf8DecodeRec_ascii (l.length + 1) l (Nat.lt_succ_self _) h

theorem percentDecodeUtf8_plain (l : List Char) (h : ∀ c ∈ l, isIdentCont c = true) :
    percentDecodeUtf8 (String.mk l) = some (String.mk l) := by
  have hascii : ∀ c ∈ l, c.toNat < 128 := fun c hc => isIdentCont_ascii c (h c hc)
  have hne : ∀ b ∈ l.map Char.toNat, b ≠ 37 := by
    intro b hb
    obtain ⟨c, hc, rfl⟩ := List.mem_map.mp hb
    exact isIdentCont_toNat_ne_37 c (h c hc)
  show (utf8Decode (percentDecodeBytes (utf8Encode l))).map String.mk = some (String.mk l)
  rw [utf8Encode_ascii l hascii, percentDecodeBytes_no37 _ hne, utf8Decode_ascii l hascii]
  rfl

theorem string_empty_append (s : String) : "" ++ s = s := by
  cases s
  rfl

theorem paramAlt_err (s : Span)
    (h : ∀ c, s.rest.head? = some c → isIdentCont c = false ∧ c ≠ '~' ∧ c ≠ '%') :
    altP [parameter_text, parameter_entity, percent_encoding] s = PResult.err s := by
  have htext : parameter_text s = PResult.err s := by
    cases hrest : s.rest with
    | nil => simp [parameter_text, takeWhile1P, hrest]
    | cons c t =>
        have hc := (h c (by simp [hrest])).1
        simp [parameter_text, takeWhile1P, hrest, List.takeWhile_cons, hc]
  have hent : parameter_entity s = PResult.err s := by
    cases hrest : s.rest with
    | nil => simp [parameter_entity, tagP, hrest, List.isPrefixOf]
    | cons c t =>
        have hc : '~' ≠ c := Ne.symm (h c (by simp [hrest])).2.1
        simp [parameter_entity, tagP, hrest, List.isPrefixOf, hc]
  have hpct : percent_encoding s = PResult.err s := by
    cases hrest : s.rest with
    | nil => simp [percent_encoding, tagP, hrest, List.isPrefixOf]
    | cons c t =>
        have hc : '%' ≠ c := Ne.symm (h c (by simp [hrest])).2.2
        simp [percent_encoding, tagP, hrest, List.isPrefixOf, hc]
  simp [altP, htext, hent, hpct]

theorem many0Rec_none (p : NomP α) (fuel : Nat) (s e : Span)
    (h : p s = PResult.err e) (hf : 1 ≤ fuel) :
    many0Rec p fuel s = PResult.ok s [] := by
  obtain ⟨m, rfl⟩ : ∃ m, fuel = m + 1 := ⟨fuel - 1, by omega⟩
  simp [many0Rec, h]

theorem many0Rec_single (p : NomP α) (fuel : Nat) (s s' e : Span) (a : α)
    (hok : p s = PResult.ok s' a) (hprog : s'.rest.length ≠ s.rest.length)
    (herr : p s' = PResult.err e) (hf : 2 ≤ fuel) :
    many0Rec p fuel s = PResult.ok s' [a] := by
  obtain ⟨m, rfl⟩ : ∃ m, fuel = m + 2 := ⟨fuel - 2, by omega⟩
  simp [many0Rec, hok, hprog, herr]

theorem parameter_run_exact (before par r : List Char)
    (hp : ∀ c ∈ par, isIdentCont c = true)
    (hr : ∀ c, r.head? = some c → isIdentCont c = false ∧ c ≠ '~' ∧ c ≠ '%') :
    parameter ⟨before, par ++ r⟩
      = PResult.ok ⟨par.reverse ++ before, r⟩
          (ActionParameter.string (String.mk par) (Span.pos ⟨before, par ++ r⟩)) := by
  cases hpar : par with
  | nil =>
      have halt : altP [parameter_text, parameter_entity, percent_encoding]
          ⟨before, [] ++ r⟩ = PResult.err ⟨before, [] ++ r⟩ :=
        paramAlt_err _ (by simpa using hr)
      have hm : many0P (altP [parameter_text, parameter_entity, percent_encoding])
          ⟨before, [] ++ r⟩ = PResult.ok ⟨before, [] ++ r⟩ [] :=
        many0Rec_none _ _ _ _ halt (by omega)
      simp only [parameter, hm]
      show PResult.ok _ (ActionParameter.new_parsed "" _) = _
      simp [ActionParameter.new_parsed]
  | cons c cs =>
      rw [← hpar]
      have hpar_ne : par ≠ [] := by rw [hpar]; exact List.cons_ne_nil c cs
      have htext : parameter_text ⟨before, par ++ r⟩
          = PResult.ok ⟨par.reverse ++ before, r⟩ (String.mk par) := by
        have := takeWhile1P_exact isIdentCont before par r hpar_ne hp
          (fun c hc => ((hr c hc).1))
        simp [parameter_text, this]
      have halt1 : altP [parameter_text, parameter_entity, percent_encoding]
          ⟨before, par ++ r⟩ = PResult.ok ⟨par.reverse ++ before, r⟩ (String.mk par) := by
        simp [altP, htext]
      have halt2 : altP [parameter_text, parameter_entity, percent_encoding]
          ⟨par.reverse ++ before, r⟩ = PResult.err ⟨par.reverse ++ before, r⟩ :=
        paramAlt_err _ (by simpa using hr)
      have hm : many0P (altP [parameter_text, parameter_entity, percent_encoding])
          ⟨before, par ++ r⟩
          = PResult.ok ⟨par.reverse ++ before, r⟩ [String.mk par] := by
        apply many0Rec_single _ _ _ _ _ _ halt1 ?_ halt2 ?_
        · show r.length ≠ (par ++ r).length
          simp only [List.length_append]
          have : 0 < par.length := List.length_pos.mpr hpar_ne
          omega
        · show 2 ≤ (({ before := before, rest := par ++ r } : Span).rest).length + 1
          simp only [List.length_append]
          have : 0 < par.length := List.length_pos.mpr hpar_ne
          omega
      have hjoin : String.join [String.mk par] = String.mk par := by
        show "" ++ String.mk par = String.mk par
        exact string_empty_append _
      simp only [parameter, hm, hjoin, percentDecodeUtf8_plain par hp]
      rfl

theorem string_mk_data (s : String) : String.mk s.data = s := by
  cases s
  rfl

/-- The stop condition met by `/`, `-` and the end of input after a plain
parameter run. -/
theorem slash_stop : isIdentCont '/' = false ∧ '/' ≠ '~' ∧ '/' ≠ '%' := by decide

theorem dash_stop : isIdentCont '-' = false ∧ '-' ≠ '~' ∧ '-' ≠ '%' := by decide

theorem pair_dash_param_exact (before par rest2 : List Char)
    (hp : ∀ c ∈ par, isIdentCont c = true)
    (hr : ∀ c, rest2.head? = some c → isIdentCont c = false ∧ c ≠ '~' ∧ c ≠ '%') :
    pairP (tagP ['-']) parameter ⟨before, '-' :: (par ++ rest2)⟩
      = PResult.ok ⟨par.reverse ++ ('-' :: before), rest2⟩
          (['-'], ActionParameter.string (String.mk par)
            (Span.pos ⟨'-' :: before, par ++ rest2⟩)) := by
  have htag : tagP ['-'] ⟨before, '-' :: (par ++ rest2)⟩
      = PResult.ok ⟨'-' :: before, par ++ rest2⟩ ['-'] := by
    simp [tagP, List.isPrefixOf, Span.advance]
  have hparam := parameter_run_exact ('-' :: before) par rest2 hp hr
  simp only [pairP, htag, hparam]

theorem many0_params_exact :
    ∀ (ps : List ActionParameter) (fuel : Nat) (before r : List Char),
      (∀ p ∈ ps, isPlainParam p = true) →
      (∀ c, r.head? = some c →
        isIdentCont c = false ∧ c ≠ '~' ∧ c ≠ '%' ∧ c ≠ '-') →
      (encParamsChars ps ++ r).length < fuel →
      ∃ l, many0Rec (pairP (tagP ['-']) parameter) fuel ⟨before, encParamsChars ps ++ r⟩
          = PResult.ok ⟨(encParamsChars ps).reverse ++ before, r⟩ l ∧
        paramListEquiv (l.map Prod.snd) ps = true := by
  intro ps
  induction ps with
  | nil =>
      intro fuel before r _ hr hfuel
      refine ⟨[], ?_, rfl⟩
      have herr : pairP (tagP ['-']) parameter ⟨before, encParamsChars [] ++ r⟩
          = PResult.err ⟨before, encParamsChars [] ++ r⟩ := by
        have htag : tagP ['-'] ⟨before, encParamsChars [] ++ r⟩
            = PResult.err ⟨before, encParamsChars [] ++ r⟩ := by
          cases hrest : r with
          | nil => simp [tagP, encParamsChars, List.isPrefixOf, hrest]
          | cons c t =>
              have hc : '-' ≠ c := fun he => (hr c (by simp [hrest])).2.2.2 he.symm
              simp [tagP, encParamsChars, List.isPrefixOf, hrest, hc]
        simp [pairP, htag]
      have := many0Rec_none (pairP (tagP ['-']) parameter) fuel _ _ herr (by omega)
      simpa [encParamsChars] using this
  | cons p ps ih =>
      intro fuel before r hp hr hfuel
      obtain ⟨s, pos', rfl⟩ : ∃ s pos', p = ActionParameter.string s pos' := by
        cases p with
        | string s q => exact ⟨s, q, rfl⟩
        | link s q => exact absurd (hp _ (List.mem_cons_self _ _)) (by simp [isPlainParam])
      have hs : ∀ c ∈ s.data, isIdentCont c = true := by
        have := hp _ (List.mem_cons_self _ _)
        simpa [isPlainParam, List.all_eq_true] using this
      have hshape : encParamsChars (ActionParameter.string s pos' :: ps) ++ r
          = '-' :: (s.data ++ (encParamsChars ps ++ r)) := by
        simp [encParamsChars, ActionParameter.to_string, List.append_assoc]
      have hstop : ∀ c, (encParamsChars ps ++ r).head? = some c →
          isIdentCont c = false ∧ c ≠ '~' ∧ c ≠ '%' := by
        intro c hc
        cases hps : ps with
        | nil =>
            rw [hps] at hc
            simp only [encParamsChars, List.map_nil, List.flatten_nil,
              List.nil_append] at hc
            exact ⟨(hr c hc).1, (hr c hc).2.1, (hr c hc).2.2.1⟩
        | cons q qs =>
            obtain ⟨t, post, rfl⟩ : ∃ t post, q = ActionParameter.string t post := by
              cases q with
              | string t u => exact ⟨t, u, rfl⟩
              | link t u =>
                  have := hp _ (List.mem_cons_of_mem _ (hps ▸ List.mem_cons_self _ _))
                  exact absurd this (by simp [isPlainParam])
            rw [hps] at hc
            simp only [encParamsChars, List.map_cons, List.flatten_cons,
              ActionParameter.to_string, List.cons_append, List.head?_cons,
              Option.some.injEq] at hc
            subst hc
            exact dash_stop
      have hpair := pair_dash_param_exact before s.data (encParamsChars ps ++ r) hs hstop
      obtain ⟨m, rfl⟩ : ∃ m, fuel = m + 1 := ⟨fuel - 1, by omega⟩
      have hlen : (encParamsChars ps ++ r).length < m := by
        rw [hshape] at hfuel
        simp only [List.length_cons, List.length_append] at hfuel ⊢
        omega
      obtain ⟨l, hrec, hequiv⟩ := ih m (s.data.reverse ++ ('-' :: before)) r
        (fun q hq => hp q (List.mem_cons_of_mem _ hq)) hr hlen
      rw [hshape]
      refine ⟨(['-'], ActionParameter.string (String.mk s.data)
        (Span.pos ⟨'-' :: before, s.data ++ (encParamsChars ps ++ r)⟩)) :: l, ?_, ?_⟩
      · simp only [many0Rec, hpair]
        rw [if_neg ?_]
        · rw [hrec]
          simp [encParamsChars, ActionParameter.to_string, List.reverse_append,
            List.append_assoc]
        · show ¬ ((encParamsChars ps ++ r).length = ('-' :: (s.data ++ _)).length)
          simp only [List.length_cons, List.length_append]
          omega
      · simp only [List.map_cons, paramListEquiv, Bool.and_eq_true]
        refine ⟨?_, hequiv⟩
        simp [ActionParameter.equiv, string_mk_data]

theorem parse_action_exact (before : List Char) (a : ActionRequest) (r : List Char)
    (ha : plainRequest a = true) (hr : ∀ c, r.head? = some c → c = '/') :
    ∃ v, parse_action ⟨before, encActionChars a ++ r⟩
        = PResult.ok ⟨(encActionChars a).reverse ++ before, r⟩ v ∧
      ActionRequest.equiv v a = true := by
  have hstopr : ∀ c, r.head? = some c →
      isIdentCont c = false ∧ c ≠ '~' ∧ c ≠ '%' ∧ c ≠ '-' := by
    intro c hc
    rw [hr c hc]
    exact ⟨slash_stop.1, slash_stop.2.1, slash_stop.2.2, by decide⟩
  simp only [plainRequest, Bool.and_eq_true] at ha
  obtain ⟨hname, hparams⟩ := ha
  obtain ⟨c, cs, hn⟩ : ∃ c cs, a.name.data = c :: cs := by
    cases hcase : a.name.data with
    | nil => rw [isIdentName, hcase] at hname; cases hname
    | cons c cs => exact ⟨c, cs, rfl⟩
  rw [isIdentName, hn] at hname
  simp only [Bool.and_eq_true] at hname
  have hstart : isIdentStart c = true := hname.1
  have hcont : ∀ x ∈ cs, isIdentCont x = true := by
    have := hname.2
    simpa [List.all_eq_true] using this
  have hplist : ∀ p ∈ a.parameters, isPlainParam p = true := by
    simpa [List.all_eq_true] using hparams
  have hshape : encActionChars a ++ r
      = (c :: cs) ++ (encParamsChars a.parameters ++ r) := by
    simp [encActionChars, hn, List.append_assoc]
  have hstop1 : ∀ x, (encParamsChars a.parameters ++ r).head? = some x →
      isIdentCont x = false := by
    intro x hx
    cases hps : a.parameters with
    | nil =>
        rw [hps] at hx
        simp only [encParamsChars, List.map_nil, List.flatten_nil, List.nil_append] at hx
        exact (hstopr x hx).1
    | cons q qs =>
        obtain ⟨t, post, rfl⟩ : ∃ t post, q = ActionParameter.string t post := by
          cases q with
          | string t u => exact ⟨t, u, rfl⟩
          | link t u =>
              have := hplist _ (hps ▸ List.mem_cons_self _ _)
              exact absurd this (by simp [isPlainParam])
        rw [hps] at hx
        simp only [encParamsChars, List.map_cons, List.flatten_cons,
          ActionParameter.to_string, List.cons_append, List.head?_cons,
          Option.some.injEq] at hx
        subst hx
        exact dash_stop.1
  have hident := identifier_exact before c cs (encParamsChars a.parameters ++ r)
    hstart hcont hstop1
  have hfuel : (encParamsChars a.parameters ++ r).length
      < (encParamsChars a.parameters ++ r).length + 1 := Nat.lt_succ_self _
  obtain ⟨l, hmany, hequiv⟩ := many0_params_exact a.parameters
    ((encParamsChars a.parameters ++ r).length + 1)
    ((c :: cs).reverse ++ before) r hplist hstopr hfuel
  refine ⟨⟨String.mk (c :: cs), Span.pos ⟨before, encActionChars a ++ r⟩,
    l.map Prod.snd⟩, ?_, ?_⟩
  · rw [hshape]
    simp only [parse_action, hident]
    rw [show many0P (pairP (tagP ['-']) parameter)
        ⟨(c :: cs).reverse ++ before, encParamsChars a.parameters ++ r⟩
        = many0Rec (pairP (tagP ['-']) parameter)
            ((encParamsChars a.parameters ++ r).length + 1)
            ⟨(c :: cs).reverse ++ before, encParamsChars a.parameters ++ r⟩ from rfl]
    rw [hmany]
    have hspan : (encParamsChars a.parameters).reverse ++ ((c :: cs).reverse ++ before)
        = (encActionChars a).reverse ++ before := by
      simp [encActionChars, hn, List.reverse_append, List.append_assoc]
    rw [hspan]
  · simp only [ActionRequest.equiv, Bool.and_eq_true]
    constructor
    · simp [← hn, string_mk_data]
    · exact hequiv

theorem encActionChars_pos (a : ActionRequest) (ha : plainRequest a = true) :
    0 < (encActionChars a).length := by
  simp only [plainRequest, Bool.and_eq_true] at ha
  obtain ⟨c, cs, hn⟩ : ∃ c cs, a.name.data = c :: cs := by
    cases hcase : a.name.data with
    | nil => rw [isIdentName, hcase] at ha; exact absurd ha.1 (by simp)
    | cons c cs => exact ⟨c, cs, rfl⟩
  simp [encActionChars, hn]

theorem tailEnc_head_slash (as : List ActionRequest) :
    ∀ c, ((as.map (fun x => '/' :: encActionChars x)).flatten).head? = some c → c = '/' := by
  intro c hc
  cases as with
  | nil => simp at hc
  | cons a rest =>
      simp only [List.map_cons, List.flatten_cons, List.cons_append, List.head?_cons,
        Option.some.injEq] at hc
      exact hc.symm

theorem sepListRec_actions :
    ∀ (as : List ActionRequest) (fuel : Nat) (before : List Char)
      (acc : List ActionRequest),
      (∀ a ∈ as, plainRequest a = true) →
      ((as.map (fun x => '/' :: encActionChars x)).flatten).length < fuel →
      ∃ vs, sepListRec (tagP ['/']) parse_action fuel
          ⟨before, (as.map (fun x => '/' :: encActionChars x)).flatten⟩ acc
          = PResult.ok
              ⟨((as.map (fun x => '/' :: encActionChars x)).flatten).reverse ++ before, []⟩
              (acc ++ vs) ∧
        reqListEquiv vs as = true := by
  intro as
  induction as with
  | nil =>
      intro fuel before acc _ hfuel
      obtain ⟨m, rfl⟩ : ∃ m, fuel = m + 1 := ⟨fuel - 1, by omega⟩
      refine ⟨[], ?_, rfl⟩
      simp [sepListRec, tagP, List.isPrefixOf]
  | cons a rest ih =>
      intro fuel before acc hplain hfuel
      obtain ⟨m, rfl⟩ : ∃ m, fuel = m + 1 := ⟨fuel - 1, by omega⟩
      have hshape : ((a :: rest).map (fun x => '/' :: encActionChars x)).flatten
          = '/' :: (encActionChars a ++ (rest.map (fun x => '/' :: encActionChars x)).flatten) := by
        simp [List.append_assoc]
      have htag : tagP ['/'] ⟨before,
          '/' :: (encActionChars a ++ (rest.map (fun x => '/' :: encActionChars x)).flatten)⟩
          = PResult.ok ⟨'/' :: before,
              encActionChars a ++ (rest.map (fun x => '/' :: encActionChars x)).flatten⟩
              ['/'] := by
        simp [tagP, List.isPrefixOf, Span.advance]
      obtain ⟨v, hact, hveq⟩ := parse_action_exact ('/' :: before) a
        ((rest.map (fun x => '/' :: encActionChars x)).flatten)
        (hplain a (List.mem_cons_self a rest)) (tailEnc_head_slash rest)
      have hm : ((rest.map (fun x => '/' :: encActionChars x)).flatten).length < m := by
        rw [hshape] at hfuel
        simp only [List.length_cons, List.length_append] at hfuel
        omega
      obtain ⟨vs, hrec, hequiv⟩ := ih m
        ((encActionChars a).reverse ++ ('/' :: before)) (acc ++ [v])
        (fun x hx => hplain x (List.mem_cons_of_mem a hx)) hm
      have hlen1 : ¬ ((encActionChars a
            ++ (rest.map (fun x => '/' :: encActionChars x)).flatten).length
          = ('/' :: (encActionChars a
              ++ (rest.map (fun x => '/' :: encActionChars x)).flatten)).length) := by
        simp only [List.length_cons]
        omega
      have hlen2 : ¬ (((rest.map (fun x => '/' :: encActionChars x)).flatten).length
          = (encActionChars a
              ++ (rest.map (fun x => '/' :: encActionChars x)).flatten).length) := by
        simp only [List.length_append]
        have := encActionChars_pos a (hplain a (List.mem_cons_self a rest))
        omega
      refine ⟨v :: vs, ?_, ?_⟩
      · rw [hshape]
        simp only [sepListRec, htag]
        dsimp only
        rw [if_neg hlen1, hact]
        dsimp only
        rw [if_neg hlen2, hrec]
        have hspans : ((rest.map (fun x => '/' :: encActionChars x)).flatten).reverse
            ++ ((encActionChars a).reverse ++ ('/' :: before))
            = ('/' :: (encActionChars a
                ++ (rest.map (fun x => '/' :: encActionChars x)).flatten)).reverse
              ++ before := by
          simp [List.reverse_append, List.append_assoc]
        rw [hspans, List.append_assoc]
        rfl
      · simp only [reqListEquiv, Bool.and_eq_true]
        exact ⟨hveq, hequiv⟩

theorem parse_action_path_exact (before : List Char) (as : List ActionRequest)
    (ha : ∀ a ∈ as, plainRequest a = true) :
    ∃ vs, parse_action_path ⟨before, encPathChars as⟩
        = PResult.ok ⟨(encPathChars as).reverse ++ before, []⟩ vs ∧
      reqListEquiv vs as = true := by
  cases as with
  | nil =>
      refine ⟨[], ?_, rfl⟩
      simp [parse_action_path, separatedListP, parse_action, identifier, takeWhile1P,
        encPathChars]
  | cons a rest =>
      obtain ⟨v, hact, hveq⟩ := parse_action_exact before a
        ((rest.map (fun x => '/' :: encActionChars x)).flatten)
        (ha a (List.mem_cons_self a rest)) (tailEnc_head_slash rest)
      have hm : ((rest.map (fun x => '/' :: encActionChars x)).flatten).length
          < ((rest.map (fun x => '/' :: encActionChars x)).flatten).length + 1 :=
        Nat.lt_succ_self _
      obtain ⟨vs, hrec, hequiv⟩ := sepListRec_actions rest
        (((rest.map (fun x => '/' :: encActionChars x)).flatten).length + 1)
        ((encActionChars a).reverse ++ before) [v]
        (fun x hx => ha x (List.mem_cons_of_mem a hx)) hm
      refine ⟨v :: vs, ?_, ?_⟩
      · have hshape : encPathChars (a :: rest)
            = encActionChars a ++ (rest.map (fun x => '/' :: encActionChars x)).flatten :=
          rfl
        rw [hshape]
        simp only [parse_action_path, separatedListP, hact]
        rw [if_neg ?_]
        · rw [hrec]
          have hspans : ((rest.map (fun x => '/' :: encActionChars x)).flatten).reverse
              ++ ((encActionChars a).reverse ++ before)
              = (encActionChars a
                  ++ (rest.map (fun x => '/' :: encActionChars x)).flatten).reverse
                ++ before := by
            simp [List.reverse_append, List.append_assoc]
          rw [hspans]
          rfl
        · show ¬ (((rest.map (fun x => '/' :: encActionChars x)).flatten).length
            = (encActionChars a
                ++ (rest.map (fun x => '/' :: encActionChars x)).flatten).length)
          simp only [List.length_append]
          have := encActionChars_pos a (ha a (List.mem_cons_self a rest))
          omega
      · simp only [reqListEquiv, Bool.and_eq_true]
        exact ⟨hveq, hequiv⟩

theorem parse_action_path_nonempty_exact (before : List Char) (a : ActionRequest)
    (rest : List ActionRequest) (ha : ∀ x ∈ a :: rest, plainRequest x = true) :
    ∃ vs, parse_action_path_nonempty ⟨before, encPathChars (a :: rest)⟩
        = PResult.ok ⟨(encPathChars (a :: rest)).reverse ++ before, []⟩ vs ∧
      reqListEquiv vs (a :: rest) = true := by
  obtain ⟨v, hact, hveq⟩ := parse_action_exact before a
    ((rest.map (fun x => '/' :: encActionChars x)).flatten)
    (ha a (List.mem_cons_self a rest)) (tailEnc_head_slash rest)
  have hm : ((rest.map (fun x => '/' :: encActionChars x)).flatten).length
      < ((rest.map (fun x => '/' :: encActionChars x)).flatten).length + 1 :=
    Nat.lt_succ_self _
  obtain ⟨vs, hrec, hequiv⟩ := sepListRec_actions rest
    (((rest.map (fun x => '/' :: encActionChars x)).flatten).length + 1)
    ((encActionChars a).reverse ++ before) [v]
    (fun x hx => ha x (List.mem_cons_of_mem a hx)) hm
  refine ⟨v :: vs, ?_, ?_⟩
  · have hshape : encPathChars (a :: rest)
        = encActionChars a ++ (rest.map (fun x => '/' :: encActionChars x)).flatten :=
      rfl
    rw [hshape]
    simp only [parse_action_path_nonempty, separatedNonemptyListP, hact]
    rw [if_neg ?_]
    · rw [hrec]
      have hspans : ((rest.map (fun x => '/' :: encActionChars x)).flatten).reverse
          ++ ((encActionChars a).reverse ++ before)
          = (encActionChars a
              ++ (rest.map (fun x => '/' :: encActionChars x)).flatten).reverse
            ++ before := by
        simp [List.reverse_append, List.append_assoc]
      rw [hspans]
      rfl
    · show ¬ (((rest.map (fun x => '/' :: encActionChars x)).flatten).length
        = (encActionChars a
            ++ (rest.map (fun x => '/' :: encActionChars x)).flatten).length)
      simp only [List.length_append]
      have := encActionChars_pos a (ha a (List.mem_cons_self a rest))
      omega
  · simp only [reqListEquiv, Bool.and_eq_true]
    exact ⟨hveq, hequiv⟩

theorem segment_with_header_err_nondash (s : Span)
    (h : ∀ c, s.rest.head? = some c → c ≠ '-') :
    parse_segment_with_header s = PResult.err s := by
  have htag : tagP ['-'] s = PResult.err s := by
    cases hr : s.rest with
    | nil => simp [tagP, List.isPrefixOf, hr]
    | cons c t =>
        have hc : '-' ≠ c := fun he => h c (by simp [hr]) he.symm
        simp [tagP, List.isPrefixOf, hr, hc]
  have h0 : many0P (tagP ['-']) s = PResult.ok s [] :=
    many0Rec_none _ _ _ _ htag (by omega)
  have hind : parse_segment_indicator s = PResult.err s := by
    simp [parse_segment_indicator, many1CountP, h0]
  simp [parse_segment_with_header, parse_segment_header, hind]

theorem parse_segment_exact (before : List Char) (a : ActionRequest)
    (rest : List ActionRequest) (ha : ∀ x ∈ a :: rest, plainRequest x = true) :
    ∃ vs, parse_segment ⟨before, encPathChars (a :: rest)⟩
        = PResult.ok ⟨(encPathChars (a :: rest)).reverse ++ before, []⟩
            (QuerySegment.new_from none vs) ∧
      reqListEquiv vs (a :: rest) = true := by
  obtain ⟨vs, hpath, hequiv⟩ := parse_action_path_nonempty_exact before a rest ha
  have hpa := ha a (List.mem_cons_self a rest)
  simp only [plainRequest, Bool.and_eq_true] at hpa
  obtain ⟨d, ds, hn⟩ : ∃ d ds, a.name.data = d :: ds := by
    cases hcase : a.name.data with
    | nil => rw [isIdentName, hcase] at hpa; exact absurd hpa.1 (by simp)
    | cons d ds => exact ⟨d, ds, rfl⟩
  have hstart : isIdentStart d = true := by
    rw [isIdentName, hn] at hpa
    have h1 := hpa.1
    simp only [Bool.and_eq_true] at h1
    exact h1.1
  have hhead : (encPathChars (a :: rest)).head? = some d := by
    show ((a.name.data ++ encParamsChars a.parameters)
        ++ (rest.map (fun x => '/' :: encActionChars x)).flatten).head? = some d
    rw [hn]
    rfl
  have hnd : ∀ c, (encPathChars (a :: rest)).head? = some c → c ≠ '-' := by
    intro c hc
    rw [hhead] at hc
    injection hc with hdc
    subst hdc
    intro hdash
    rw [hdash] at hstart
    exact absurd hstart (by decide)
  have hwh : parse_segment_with_header ⟨before, encPathChars (a :: rest)⟩
      = PResult.err ⟨before, encPathChars (a :: rest)⟩ :=
    segment_with_header_err_nondash _ hnd
  have hwoh : parse_segment_without_header ⟨before, encPathChars (a :: rest)⟩
      = PResult.ok ⟨(encPathChars (a :: rest)).reverse ++ before, []⟩
          (QuerySegment.new_from none vs) := by
    simp [parse_segment_without_header, hpath]
  refine ⟨vs, ?_, hequiv⟩
  simp [parse_segment, altP, hwh, hwoh]

theorem sepListRec_stop (sep : NomP β) (p : NomP α) (fuel : Nat) (s e : Span)
    (acc : List α) (h : sep s = PResult.err e) (hf : 1 ≤ fuel) :
    sepListRec sep p fuel s acc = PResult.ok s acc := by
  obtain ⟨m, rfl⟩ : ∃ m, fuel = m + 1 := ⟨fuel - 1, by omega⟩
  simp [sepListRec, h]

theorem parse_plain_nonempty (a : ActionRequest) (rest : List ActionRequest)
    (ha : ∀ x ∈ a :: rest, plainRequest x = true) :
    ∃ vs, parse (String.mk (encPathChars (a :: rest)))
        = Except.ok { segments := [QuerySegment.new_from none vs] } ∧
      reqListEquiv vs (a :: rest) = true := by
  obtain ⟨vs, hseg, hequiv⟩ := parse_segment_exact [] a rest ha
  refine ⟨vs, ?_, hequiv⟩
  have hlen : 0 < (encPathChars (a :: rest)).length := by
    show 0 < (encActionChars a
        ++ (rest.map (fun x => '/' :: encActionChars x)).flatten).length
    rw [List.length_append]
    have := encActionChars_pos a (ha a (List.mem_cons_self a rest))
    omega
  have hsep : separatedListP (tagP ['/']) parse_segment ⟨[], encPathChars (a :: rest)⟩
      = PResult.ok ⟨(encPathChars (a :: rest)).reverse ++ [], []⟩
          [QuerySegment.new_from none vs] := by
    simp only [separatedListP, hseg]
    rw [if_neg ?_]
    · have htag : tagP ['/'] (⟨(encPathChars (a :: rest)).reverse ++ [], []⟩ : Span)
          = PResult.err ⟨(encPathChars (a :: rest)).reverse ++ [], []⟩ := by
        simp [tagP, List.isPrefixOf]
      exact sepListRec_stop _ _ _ _ _ _ htag (by omega)
    · simp only [List.length_nil]
      omega
  have hspan : Span.initial (String.mk (encPathChars (a :: rest)))
      = ⟨[], encPathChars (a :: rest)⟩ := rfl
  have hq : parse_query (Span.initial (String.mk (encPathChars (a :: rest))))
      = PResult.ok ⟨(encPathChars (a :: rest)).reverse ++ [], []⟩
          { segments := [QuerySegment.new_from none vs] } := by
    simp only [parse_query, hspan, hsep]
  simp only [parse, hq]
  rfl

theorem intercalate_go_data (sep : String) :
    ∀ (xs : List String) (acc : String),
      (String.intercalate.go acc sep xs).data
        = acc.data ++ (xs.map (fun y => sep.data ++ y.data)).flatten := by
  intro xs
  induction xs with
  | nil => intro acc; simp [String.intercalate.go]
  | cons x rest ih =>
      intro acc
      rw [String.intercalate.go, ih]
      simp [String.data_append, List.append_assoc]

theorem intercalate_data (sep x : String) (xs : List String) :
    (String.intercalate sep (x :: xs)).data
      = x.data ++ (xs.map (fun y => sep.data ++ y.data)).flatten := by
  rw [String.intercalate, intercalate_go_data]

theorem isPlainParam_isString (p : ActionParameter) (h : isPlainParam p = true) :
    isStringParam p = true := by
  cases p with
  | string s q => rfl
  | link s q => exact absurd h (by simp [isPlainParam])

theorem encode_plain_action (a : ActionRequest) (ha : plainRequest a = true) :
    ActionRequest.encode a = Except.ok (String.mk (encActionChars a)) := by
  simp only [plainRequest, Bool.and_eq_true] at ha
  obtain ⟨hname, hparams⟩ := ha
  cases hps : a.parameters with
  | nil =>
      simp only [ActionRequest.encode, hps, List.isEmpty_nil, if_true]
      rw [show encActionChars a = a.name.data ++ [] by
        simp [encActionChars, encParamsChars, hps]]
      rw [List.append_nil, string_mk_data]
  | cons p ps =>
      have hstr : (p :: ps).all isStringParam = true := by
        rw [← hps]
        rw [List.all_eq_true] at hparams ⊢
        exact fun x hx => isPlainParam_isString x (hparams x hx)
      have hmap := mapM_encode_of_strings (p :: ps) hstr
      simp only [ActionRequest.encode, hps, List.isEmpty_cons, Bool.false_eq_true,
        if_false, hmap]
      show Except.ok _ = Except.ok _
      congr 1
      have hdata : (a.name ++ "-" ++ String.intercalate "-"
          (List.map ActionParameter.to_string (p :: ps))).data
          = encActionChars a := by
        rw [String.data_append, String.data_append]
        rw [show (List.map ActionParameter.to_string (p :: ps))
          = ActionParameter.to_string p :: List.map ActionParameter.to_string ps from rfl]
        rw [intercalate_data]
        simp [encActionChars, encParamsChars, hps, List.map_map, Function.comp_def,
          List.append_assoc]
      rw [← hdata, string_mk_data]

theorem encode_plain_path (l : List ActionRequest) (h : ∀ a ∈ l, plainRequest a = true) :
    QuerySegment.encode ⟨none, l⟩ = Except.ok (String.mk (encPathChars l)) := by
  have hmap : l.mapM ActionRequest.encode
      = Except.ok (l.map (fun a => String.mk (encActionChars a))) := by
    induction l with
    | nil => rfl
    | cons a rest ih =>
        simp only [List.mapM_cons, encode_plain_action a (h a (List.mem_cons_self a rest)),
          ih (fun x hx => h x (List.mem_cons_of_mem a hx)), List.map_cons]
        rfl
  simp only [QuerySegment.encode, hmap]
  show Except.ok _ = Except.ok _
  congr 1
  cases l with
  | nil => rfl
  | cons a rest =>
      have hdata : (String.intercalate "/"
          (List.map (fun a => String.mk (encActionChars a)) (a :: rest))).data
          = encPathChars (a :: rest) := by
        rw [show List.map (fun a => String.mk (encActionChars a)) (a :: rest)
          = String.mk (encActionChars a)
            :: List.map (fun a => String.mk (encActionChars a)) rest from rfl]
        rw [intercalate_data]
        simp [encPathChars, List.map_map, Function.comp_def]
      rw [← hdata, string_mk_data]

/-- C1 (counterexample): the Syntax Model value `a(-123)` — a headerless
segment whose action `a` has the single `String` parameter `-123`, exactly
the structure the parser itself builds from `a-~123` — encodes to `a--123`
(the encoder does not re-escape), and parsing `a--123` yields a structurally
different value (two parameters, `""` and `123`), under both the segmented
and the flat grammar. -/
theorem C1_counterexample :
    QuerySegment.encode c1Segment = Except.ok "a--123" ∧
    (parse_query_simple "a-~123").map (fun l => reqListEquiv l [c1Request])
      = Except.ok true ∧
    (parse "a--123").map (fun q => q.equiv { segments := [c1Segment] })
      = Except.ok false ∧
    (parse_query_simple "a--123").map (fun l => reqListEquiv l [c1Request])
      = Except.ok false := by
  refine ⟨rfl, rfl, rfl, rfl⟩

/-- C1 (amended): round-trip holds on the escape-free flat fragment — for
every action list whose names match the identifier grammar and whose
parameters are `String`-variant with text made of parameter-run characters
(letters, digits, `_`), the headerless-segment encoding succeeds, the flat
parser `parse_query_simple` maps the text back to a structurally equivalent
list, and the segmented parser `parse` maps it back to a query equivalent to
the single headerless segment holding the list whenever the list is
non-empty; for the empty list `parse` returns the zero-segment query
(positions re-normalized throughout). -/
theorem C1_roundtrip_plain (l : List ActionRequest) (h : l.all plainRequest = true) :
    ∃ t, QuerySegment.encode ⟨none, l⟩ = Except.ok t ∧
      (∃ res, parse_query_simple t = Except.ok res ∧ reqListEquiv res l = true) ∧
      (l ≠ [] → ∃ q, parse t = Except.ok q ∧
        Query.equiv q { segments := [⟨none, l⟩] } = true) ∧
      (l = [] → parse t = Except.ok { segments := [] }) := by
  have hall : ∀ a ∈ l, plainRequest a = true := by
    simpa [List.all_eq_true] using h
  refine ⟨String.mk (encPathChars l), encode_plain_path l hall, ?_, ?_, ?_⟩
  · obtain ⟨vs, hp, he⟩ := parse_action_path_exact [] l hall
    refine ⟨vs, ?_, he⟩
    have hspan : Span.initial (String.mk (encPathChars l))
        = ⟨[], encPathChars l⟩ := rfl
    simp only [parse_query_simple, hspan, hp]
    rfl
  · intro hne
    obtain ⟨a, rest, rfl⟩ : ∃ a rest, l = a :: rest := by
      cases l with
      | nil => exact absurd rfl hne
      | cons a rest => exact ⟨a, rest, rfl⟩
    obtain ⟨vs, hparse, hequiv⟩ := parse_plain_nonempty a rest hall
    refine ⟨_, hparse, ?_⟩
    simp [Query.equiv, segListEquiv, QuerySegment.equiv, QuerySegment.new_from, hequiv]
  · intro hz
    subst hz
    rfl

/-- C1 (witness for the amended round-trip): the concrete action list
`abc(12)/x_y()` survives the encode–parse round trip through both the flat
and the segmented top-level parser. -/
theorem C1_roundtrip_plain_witness :
    ∃ t, QuerySegment.encode
        ⟨none, [⟨"abc", Position.unknown, [ActionParameter.new "12"]⟩,
          ⟨"x_y", Position.unknown, []⟩]⟩ = Except.ok t ∧
      (∃ res, parse_query_simple t = Except.ok res ∧
        reqListEquiv res [⟨"abc", Position.unknown, [ActionParameter.new "12"]⟩,
          ⟨"x_y", Position.unknown, []⟩] = true) ∧
      (∃ q, parse t = Except.ok q ∧
        Query.equiv q { segments := [⟨none,
          [⟨"abc", Position.unknown, [ActionParameter.new "12"]⟩,
            ⟨"x_y", Position.unknown, []⟩]⟩] } = true) := by
  obtain ⟨t, h1, h2, h3, h4⟩ := C1_roundtrip_plain
    [⟨"abc", Position.unknown, [ActionParameter.new "12"]⟩,
      ⟨"x_y", Position.unknown, []⟩] (by decide)
  exact ⟨t, h1, h2, h3 (by decide)⟩

/-! ## Escape well-formedness toolbox (for C4) -/

theorem ewfStep_le (c : Char) (rest rest2 : List Char) (h : ewfStep c rest = some rest2) :
    rest2.length ≤ rest.length := by
  by_cases hc1 : c = '~'
  · simp only [ewfStep, hc1, if_true] at h
    cases rest with
    | nil => cases h
    | cons d r2 =>
        dsimp only at h
        by_cases hd : (d = '~' || d = '_' || d.isDigit) = true
        · rw [if_pos hd] at h
          injection h with h2
          subst h2
          simp
        · rw [if_neg hd] at h
          cases h
  · by_cases hc2 : c = '%'
    · simp only [ewfStep, hc1, hc2, if_false, if_true] at h
      cases rest with
      | nil => cases h
      | cons d1 r1 =>
          cases r1 with
          | nil => cases h
          | cons d2 r2 =>
              dsimp only at h
              by_cases hd : (isHexChar d1 && isHexChar d2) = true
              · rw [if_pos hd] at h
                injection h with h2
                subst h2
                simp
                omega
              · rw [if_neg hd] at h
                cases h
    · simp only [ewfStep, hc1, hc2, if_false] at h
      injection h with h2
      subst h2
      exact Nat.le_refl _

theorem ewfRec_congr : ∀ (f1 f2 : Nat) (l : List Char),
    l.length < f1 → l.length < f2 → ewfRec f1 l = ewfRec f2 l := by
  intro f1
  induction f1 with
  | zero => intro f2 l h1; omega
  | succ n ih =>
      intro f2 l h1 h2
      obtain ⟨m, rfl⟩ : ∃ m, f2 = m + 1 := ⟨f2 - 1, by omega⟩
      cases l with
      | nil => rfl
      | cons c rest =>
          simp only [ewfRec]
          cases hstep : ewfStep c rest with
          | none => rfl
          | some rest2 =>
              have hle := ewfStep_le c rest rest2 hstep
              simp only [List.length_cons] at h1 h2
              exact ih m rest2 (by omega) (by omega)

theorem ewf_cons_step (c : Char) (rest rest2 : List Char)
    (h : ewfStep c rest = some rest2) : ewf (c :: rest) = ewf rest2 := by
  show ewfRec ((c :: rest).length + 1) (c :: rest) = ewf rest2
  simp only [List.length_cons, ewfRec, h]
  exact ewfRec_congr (rest.length + 1) (rest2.length + 1) rest2
    (by have := ewfStep_le c rest rest2 h; omega) (Nat.lt_succ_self _)

theorem ewf_cons_fail (c : Char) (rest : List Char) (h : ewfStep c rest = none) :
    ewf (c :: rest) = false := by
  show ewfRec ((c :: rest).length + 1) (c :: rest) = false
  simp only [List.length_cons, ewfRec, h]

theorem ewfStep_append (c : Char) (rest rest2 Y : List Char)
    (h : ewfStep c rest = some rest2) : ewfStep c (rest ++ Y) = some (rest2 ++ Y) := by
  by_cases hc1 : c = '~'
  · simp only [ewfStep, hc1, if_true] at h ⊢
    cases rest with
    | nil => cases h
    | cons d r2 =>
        dsimp only at h
        by_cases hd : (d = '~' || d = '_' || d.isDigit) = true
        · rw [if_pos hd] at h
          injection h with h2
          subst h2
          simp [hd]
        · rw [if_neg hd] at h
          cases h
  · by_cases hc2 : c = '%'
    · simp only [ewfStep, hc1, hc2, if_false, if_true] at h ⊢
      cases rest with
      | nil => cases h
      | cons d1 r1 =>
          cases r1 with
          | nil => cases h
          | cons d2 r2 =>
              dsimp only at h
              by_cases hd : (isHexChar d1 && isHexChar d2) = true
              · rw [if_pos hd] at h
                injection h with h2
                subst h2
                simp [hd]
              · rw [if_neg hd] at h
                cases h
    · simp only [ewfStep, hc1, hc2, if_false] at h ⊢
      injection h with h2
      subst h2
      rfl

theorem ewf_append_aux : ∀ (n : Nat) (X Y : List Char), X.length ≤ n →
    ewf X = true → ewf Y = true → ewf (X ++ Y) = true := by
  intro n
  induction n with
  | zero =>
      intro X Y hlen hX hY
      have : X = [] := List.length_eq_zero.mp (Nat.le_zero.mp hlen)
      subst this
      simpa using hY
  | succ n ih =>
      intro X Y hlen hX hY
      cases X with
      | nil => simpa using hY
      | cons c rest =>
          cases hstep : ewfStep c rest with
          | none => rw [ewf_cons_fail c rest hstep] at hX; cases hX
          | some rest2 =>
              rw [ewf_cons_step c rest rest2 hstep] at hX
              have hstep2 := ewfStep_append c rest rest2 Y hstep
              rw [List.cons_append, ewf_cons_step c (rest ++ Y) (rest2 ++ Y) hstep2]
              have hle := ewfStep_le c rest rest2 hstep
              simp only [List.length_cons] at hlen
              exact ih rest2 Y (by omega) hX hY

theorem ewf_append (X Y : List Char) (hX : ewf X = true) (hY : ewf Y = true) :
    ewf (X ++ Y) = true :=
  ewf_append_aux X.length X Y (Nat.le_refl _) hX hY

theorem ewf_of_no_special : ∀ X : List Char, (∀ c ∈ X, c ≠ '~' ∧ c ≠ '%') →
    ewf X = true := by
  intro X
  induction X with
  | nil => intro _; rfl
  | cons c rest ih =>
      intro h
      have hc := h c (List.mem_cons_self c rest)
      have hstep : ewfStep c rest = some rest := by
        simp [ewfStep, hc.1, hc.2]
      rw [ewf_cons_step c rest rest hstep]
      exact ih (fun x hx => h x (List.mem_cons_of_mem c hx))

/-! ## The non-backtracking escape commit (for C4) -/

theorem parameter_tilde_commit (s : Span) (r : List Char) (hs : s.rest = '~' :: r)
    (hmal : tildeMalformed r = true) : parameter s = PResult.fail (s.advance 1) := by
  have hs1 : (s.advance 1).rest = r := by
    simp [Span.advance, hs]
  have htext : parameter_text s = PResult.err s := by
    simp [parameter_text, takeWhile1P, hs, List.takeWhile_cons,
      show isIdentCont '~' = false from rfl]
  have htag : tagP ['~'] s = PResult.ok (s.advance 1) ['~'] := by
    simp [tagP, hs, List.isPrefixOf]
  have hinner : altP [tilde_entity, minus_entity, negative_number_entity] (s.advance 1)
      = PResult.err (s.advance 1) := by
    cases hr : r with
    | nil =>
        have h1 : tilde_entity (s.advance 1) = PResult.err (s.advance 1) := by
          simp [tilde_entity, tagP, hs1, hr, List.isPrefixOf]
        have h2 : minus_entity (s.advance 1) = PResult.err (s.advance 1) := by
          simp [minus_entity, tagP, hs1, hr, List.isPrefixOf]
        have h3 : negative_number_entity (s.advance 1) = PResult.err (s.advance 1) := by
          simp [negative_number_entity, digit1P, takeWhile1P, hs1, hr]
        simp [altP, h1, h2, h3]
    | cons d t =>
        rw [hr] at hmal
        have hcond : (decide (d = '~') || decide (d = '_') || d.isDigit) = false := by
          simpa [tildeMalformed] using hmal
        simp only [Bool.or_eq_false_iff, decide_eq_false_iff_not] at hcond
        obtain ⟨⟨hd1, hd2⟩, hd3⟩ := hcond
        have h1 : tilde_entity (s.advance 1) = PResult.err (s.advance 1) := by
          simp [tilde_entity, tagP, hs1, hr, List.isPrefixOf, Ne.symm hd1]
        have h2 : minus_entity (s.advance 1) = PResult.err (s.advance 1) := by
          simp [minus_entity, tagP, hs1, hr, List.isPrefixOf, Ne.symm hd2]
        have h3 : negative_number_entity (s.advance 1) = PResult.err (s.advance 1) := by
          simp [negative_number_entity, digit1P, takeWhile1P, hs1, hr,
            List.takeWhile_cons, hd3]
        simp [altP, h1, h2, h3]
  have hent : parameter_entity s = PResult.fail (s.advance 1) := by
    simp [parameter_entity, htag, cutP, hinner]
  have halt : altP [parameter_text, parameter_entity, percent_encoding] s
      = PResult.fail (s.advance 1) := by
    simp [altP, htext, hent]
  have hm : many0P (altP [parameter_text, parameter_entity, percent_encoding]) s
      = PResult.fail (s.advance 1) := by
    show many0Rec _ (s.rest.length + 1) s = _
    rw [hs]
    simp only [List.length_cons, many0Rec, halt]
  simp [parameter, hm]

theorem parameter_pct_commit (s : Span) (r : List Char) (hs : s.rest = '%' :: r)
    (hmal : pctMalformed r = true) : parameter s = PResult.fail (s.advance 1) := by
  have hs1 : (s.advance 1).rest = r := by
    simp [Span.advance, hs]
  have htext : parameter_text s = PResult.err s := by
    simp [parameter_text, takeWhile1P, hs, List.takeWhile_cons,
      show isIdentCont '%' = false from rfl]
  have hent : parameter_entity s = PResult.err s := by
    simp [parameter_entity, tagP, hs, List.isPrefixOf]
  have htag : tagP ['%'] s = PResult.ok (s.advance 1) ['%'] := by
    simp [tagP, hs, List.isPrefixOf]
  have hmn : takeWhileMN 2 2 isHexChar (s.advance 1) = PResult.err (s.advance 1) := by
    have hlen : ((r.takeWhile isHexChar).take 2).length < 2 := by
      cases hr : r with
      | nil => simp
      | cons d1 t1 =>
          cases ht1 : t1 with
          | nil =>
              have h1 := (List.takeWhile_sublist (l := [d1]) isHexChar).length_le
              simp only [List.length_take]
              simp only [List.length_singleton] at h1
              omega
          | cons d2 t2 =>
              rw [hr, ht1] at hmal
              have hcond : isHexChar d1 = false ∨ isHexChar d2 = false := by
                simpa [pctMalformed] using hmal
              cases h1 : isHexChar d1 with
              | false => simp [List.takeWhile_cons, h1]
              | true =>
                  have h2 : isHexChar d2 = false := by
                    rcases hcond with hx | hx
                    · rw [h1] at hx; cases hx
                    · exact hx
                  simp [List.takeWhile_cons, h1, h2]
    simp only [takeWhileMN, hs1]
    rw [if_pos hlen]
  have hpct : percent_encoding s = PResult.fail (s.advance 1) := by
    simp [percent_encoding, htag, cutP, hmn]
  have halt : altP [parameter_text, parameter_entity, percent_encoding] s
      = PResult.fail (s.advance 1) := by
    simp [altP, htext, hent, hpct]
  have hm : many0P (altP [parameter_text, parameter_entity, percent_encoding]) s
      = PResult.fail (s.advance 1) := by
    show many0Rec _ (s.rest.length + 1) s = _
    rw [hs]
    simp only [List.length_cons, many0Rec, halt]
  simp [parameter, hm]

/-! ## Every parser consumes escape-well-formed text (for C4) -/

theorem tagP_ok (t : List Char) (s s' : Span) (a : List Char)
    (h : tagP t s = PResult.ok s' a) :
    s.rest = t ++ s'.rest ∧ a = t := by
  simp only [tagP] at h
  split at h
  next hp =>
    obtain ⟨u, hu⟩ := List.isPrefixOf_iff_prefix.mp hp
    injection h with h1 h2
    subst h1
    subst h2
    refine ⟨?_, rfl⟩
    show s.rest = t ++ s.rest.drop t.length
    rw [← hu, List.drop_left]
  next hp => cases h

theorem tagP_not_fail (t : List Char) (s e : Span) : tagP t s ≠ PResult.fail e := by
  intro h
  simp only [tagP] at h
  split at h <;> cases h

theorem takeWhile1P_ok (p : Char → Bool) (s s' : Span) (a : List Char)
    (h : takeWhile1P p s = PResult.ok s' a) :
    s.rest = a ++ s'.rest ∧ (∀ c ∈ a, p c = true) ∧ a ≠ [] := by
  by_cases he : (s.rest.takeWhile p).isEmpty
  · simp only [takeWhile1P, he, if_true] at h
    cases h
  · simp only [takeWhile1P, he, if_false] at h
    injection h with h1 h2
    subst h1
    subst h2
    have hsplit := List.takeWhile_append_dropWhile (p := p) (l := s.rest)
    refine ⟨?_, ?_, ?_⟩
    · rw [show (s.advance (s.rest.takeWhile p).length).rest
        = s.rest.drop (s.rest.takeWhile p).length from rfl]
      have hdrop : s.rest.drop (s.rest.takeWhile p).length = s.rest.dropWhile p := by
        have h2 := List.drop_left (s.rest.takeWhile p) (s.rest.dropWhile p)
        rw [hsplit] at h2
        exact h2
      rw [hdrop]
      exact hsplit.symm
    · intro c hc
      exact List.mem_takeWhile_imp hc
    · intro hnil
      rw [hnil] at he
      exact he rfl

theorem takeWhileP_ok (p : Char → Bool) (s s' : Span) (a : List Char)
    (h : takeWhileP p s = PResult.ok s' a) :
    s.rest = a ++ s'.rest ∧ (∀ c ∈ a, p c = true) := by
  simp only [takeWhileP] at h
  injection h with h1 h2
  subst h1
  subst h2
  have hsplit := List.takeWhile_append_dropWhile (p := p) (l := s.rest)
  refine ⟨?_, fun c hc => List.mem_takeWhile_imp hc⟩
  rw [show (s.advance (s.rest.takeWhile p).length).rest
    = s.rest.drop (s.rest.takeWhile p).length from rfl]
  have hdrop : s.rest.drop (s.rest.takeWhile p).length = s.rest.dropWhile p := by
    have h2 := List.drop_left (s.rest.takeWhile p) (s.rest.dropWhile p)
    rw [hsplit] at h2
    exact h2
  rw [hdrop]
  exact hsplit.symm

theorem consumesEwf_tag (t : List Char) (ht : ∀ c ∈ t, c ≠ '~' ∧ c ≠ '%') :
    ConsumesEwf (tagP t) := by
  intro s s' a h
  obtain ⟨hrest, _⟩ := tagP_ok t s s' a h
  exact ⟨t, hrest, ewf_of_no_special t ht⟩

theorem consumesEwf_takeWhile1 (p : Char → Bool)
    (hp : ∀ c, p c = true → c ≠ '~' ∧ c ≠ '%') : ConsumesEwf (takeWhile1P p) := by
  intro s s' a h
  obtain ⟨hrest, hall, _⟩ := takeWhile1P_ok p s s' a h
  exact ⟨a, hrest, ewf_of_no_special a (fun c hc => hp c (hall c hc))⟩

theorem consumesEwf_takeWhile (p : Char → Bool)
    (hp : ∀ c, p c = true → c ≠ '~' ∧ c ≠ '%') : ConsumesEwf (takeWhileP p) := by
  intro s s' a h
  obtain ⟨hrest, hall⟩ := takeWhileP_ok p s s' a h
  exact ⟨a, hrest, ewf_of_no_special a (fun c hc => hp c (hall c hc))⟩

theorem consumesEwf_alt : ∀ (ps : List (NomP α)), (∀ p ∈ ps, ConsumesEwf p) →
    ConsumesEwf (altP ps) := by
  intro ps
  induction ps with
  | nil =>
      intro _ s s' a h
      simp only [altP] at h
      cases h
  | cons p rest ih =>
      intro hall s s' a h
      simp only [altP] at h
      cases hp : p s with
      | ok s1 a1 =>
          rw [hp] at h
          injection h with h1 h2
          subst h1
          subst h2
          exact hall p (List.mem_cons_self p rest) s s1 a1 hp
      | fail s1 => rw [hp] at h; cases h
      | err s1 =>
          rw [hp] at h
          cases rest with
          | nil => cases h
          | cons q qs =>
              exact ih (fun x hx => hall x (List.mem_cons_of_mem p hx)) s s' a h

theorem consumesEwf_pair (p : NomP α) (q : NomP β) (hp : ConsumesEwf p)
    (hq : ConsumesEwf q) : ConsumesEwf (pairP p q) := by
  intro s s' a h
  simp only [pairP] at h
  cases hps : p s with
  | err s1 => rw [hps] at h; cases h
  | fail s1 => rw [hps] at h; cases h
  | ok s1 a1 =>
      rw [hps] at h
      dsimp only at h
      cases hqs : q s1 with
      | err s2 => rw [hqs] at h; cases h
      | fail s2 => rw [hqs] at h; cases h
      | ok s2 a2 =>
          rw [hqs] at h
          injection h with h1 h2
          subst h1
          obtain ⟨X1, hX1, he1⟩ := hp s s1 a1 hps
          obtain ⟨X2, hX2, he2⟩ := hq s1 s2 a2 hqs
          exact ⟨X1 ++ X2, by rw [hX1, hX2, List.append_assoc],
            ewf_append X1 X2 he1 he2⟩

theorem consumesEwf_opt (p : NomP α) (hp : ConsumesEwf p) : ConsumesEwf (optP p) := by
  intro s s' a h
  simp only [optP] at h
  cases hps : p s with
  | ok s1 a1 =>
      rw [hps] at h
      injection h with h1 h2
      subst h1
      exact (hp s s1 a1 hps).imp (fun X hX => hX)
  | err s1 =>
      rw [hps] at h
      injection h with h1 h2
      subst h1
      exact ⟨[], rfl, rfl⟩
  | fail s1 => rw [hps] at h; cases h

theorem consumesEwf_cut (p : NomP α) (hp : ConsumesEwf p) : ConsumesEwf (cutP p) := by
  intro s s' a h
  simp only [cutP] at h
  cases hps : p s with
  | ok s1 a1 =>
      rw [hps] at h
      injection h with h1 h2
      subst h1
      subst h2
      exact hp _ _ _ hps
  | err s1 => rw [hps] at h; cases h
  | fail s1 => rw [hps] at h; cases h

theorem consumesEwf_many0Rec (p : NomP α) (hp : ConsumesEwf p) :
    ∀ (fuel : Nat) (s s' : Span) (l : List α),
      many0Rec p fuel s = PResult.ok s' l →
      ∃ X, s.rest = X ++ s'.rest ∧ ewf X = true := by
  intro fuel
  induction fuel with
  | zero => intro s s' l h; cases h
  | succ n ih =>
      intro s s' l h
      simp only [many0Rec] at h
      cases hps : p s with
      | err s1 =>
          rw [hps] at h
          injection h with h1 h2
          subst h1
          exact ⟨[], rfl, rfl⟩
      | fail s1 => rw [hps] at h; cases h
      | ok s1 a1 =>
          rw [hps] at h
          dsimp only at h
          by_cases hprog : s1.rest.length = s.rest.length
          · rw [if_pos hprog] at h; cases h
          · rw [if_neg hprog] at h
            cases hrec : many0Rec p n s1 with
            | ok s2 l2 =>
                rw [hrec] at h
                injection h with h1 h2
                subst h1
                obtain ⟨X1, hX1, he1⟩ := hp s s1 a1 hps
                obtain ⟨X2, hX2, he2⟩ := ih s1 s2 l2 hrec
                exact ⟨X1 ++ X2, by rw [hX1, hX2, List.append_assoc],
                  ewf_append X1 X2 he1 he2⟩
            | err s2 => rw [hrec] at h; cases h
            | fail s2 => rw [hrec] at h; cases h

theorem consumesEwf_many0 (p : NomP α) (hp : ConsumesEwf p) :
    ConsumesEwf (many0P p) := by
  intro s s' l h
  exact consumesEwf_many0Rec p hp (s.rest.length + 1) s s' l h

theorem consumesEwf_many1Count (p : NomP α) (hp : ConsumesEwf p) :
    ConsumesEwf (many1CountP p) := by
  intro s s' n h
  simp only [many1CountP] at h
  cases hm : many0P p s with
  | ok s1 l =>
      rw [hm] at h
      dsimp only at h
      by_cases hl : l.isEmpty
      · rw [if_pos hl] at h; cases h
      · rw [if_neg hl] at h
        injection h with h1 h2
        subst h1
        exact consumesEwf_many0 p hp _ _ _ hm
  | err s1 => rw [hm] at h; cases h
  | fail s1 => rw [hm] at h; cases h

theorem consumesEwf_sepListRec (sep : NomP β) (p : NomP α) (hsep : ConsumesEwf sep)
    (hp : ConsumesEwf p) :
    ∀ (fuel : Nat) (s : Span) (acc : List α) (s' : Span) (l : List α),
      sepListRec sep p fuel s acc = PResult.ok s' l →
      ∃ X, s.rest = X ++ s'.rest ∧ ewf X = true := by
  intro fuel
  induction fuel with
  | zero => intro s acc s' l h; cases h
  | succ n ih =>
      intro s acc s' l h
      simp only [sepListRec] at h
      cases hss : sep s with
      | err s1 =>
          rw [hss] at h
          injection h with h1 h2
          subst h1
          exact ⟨[], rfl, rfl⟩
      | fail s1 => rw [hss] at h; cases h
      | ok s1 b1 =>
          rw [hss] at h
          dsimp only at h
          by_cases hprog1 : s1.rest.length = s.rest.length
          · rw [if_pos hprog1] at h; cases h
          · rw [if_neg hprog1] at h
            cases hps : p s1 with
            | err s2 =>
                rw [hps] at h
                injection h with h1 h2
                subst h1
                exact ⟨[], rfl, rfl⟩
            | fail s2 => rw [hps] at h; cases h
            | ok s2 a2 =>
                rw [hps] at h
                dsimp only at h
                by_cases hprog2 : s2.rest.length = s1.rest.length
                · rw [if_pos hprog2] at h; cases h
                · rw [if_neg hprog2] at h
                  obtain ⟨X3, hX3, he3⟩ := ih s2 (acc ++ [a2]) s' l h
                  obtain ⟨X1, hX1, he1⟩ := hsep s s1 b1 hss
                  obtain ⟨X2, hX2, he2⟩ := hp s1 s2 a2 hps
                  refine ⟨X1 ++ (X2 ++ X3), ?_, ?_⟩
                  · rw [hX1, hX2, hX3, List.append_assoc, List.append_assoc]
                  · exact ewf_append _ _ he1 (ewf_append _ _ he2 he3)

theorem consumesEwf_separatedList (sep : NomP β) (p : NomP α) (hsep : ConsumesEwf sep)
    (hp : ConsumesEwf p) : ConsumesEwf (separatedListP sep p) := by
  intro s s' l h
  simp only [separatedListP] at h
  cases hps : p s with
  | err s1 =>
      rw [hps] at h
      injection h with h1 h2
      subst h1
      exact ⟨[], rfl, rfl⟩
  | fail s1 => rw [hps] at h; cases h
  | ok s1 a1 =>
      rw [hps] at h
      dsimp only at h
      by_cases hprog : s1.rest.length = s.rest.length
      · rw [if_pos hprog] at h; cases h
      · rw [if_neg hprog] at h
        obtain ⟨X2, hX2, he2⟩ := consumesEwf_sepListRec sep p hsep hp _ s1 [a1] s' l h
        obtain ⟨X1, hX1, he1⟩ := hp s s1 a1 hps
        exact ⟨X1 ++ X2, by rw [hX1, hX2, List.append_assoc],
          ewf_append X1 X2 he1 he2⟩

theorem consumesEwf_separatedNonemptyList (sep : NomP β) (p : NomP α)
    (hsep : ConsumesEwf sep) (hp : ConsumesEwf p) :
    ConsumesEwf (separatedNonemptyListP sep p) := by
  intro s s' l h
  simp only [separatedNonemptyListP] at h
  cases hps : p s with
  | err s1 => rw [hps] at h; cases h
  | fail s1 => rw [hps] at h; cases h
  | ok s1 a1 =>
      rw [hps] at h
      dsimp only at h
      by_cases hprog : s1.rest.length = s.rest.length
      · rw [if_pos hprog] at h; cases h
      · rw [if_neg hprog] at h
        obtain ⟨X2, hX2, he2⟩ := consumesEwf_sepListRec sep p hsep hp _ s1 [a1] s' l h
        obtain ⟨X1, hX1, he1⟩ := hp s s1 a1 hps
        exact ⟨X1 ++ X2, by rw [hX1, hX2, List.append_assoc],
          ewf_append X1 X2 he1 he2⟩

theorem cutP_ok_inv (p : NomP α) (s s' : Span) (a : α)
    (h : cutP p s = PResult.ok s' a) : p s = PResult.ok s' a := by
  simp only [cutP] at h
  cases hps : p s with
  | ok s1 a1 => rw [hps] at h; exact h
  | err s1 => rw [hps] at h; cases h
  | fail s1 => rw [hps] at h; cases h

theorem isIdentCont_ne_special (c : Char) (h : isIdentCont c = true) :
    c ≠ '~' ∧ c ≠ '%' := by
  constructor
  · intro he; subst he; exact absurd h (by decide)
  · intro he; subst he; exact absurd h (by decide)

theorem isIdentStart_ne_special (c : Char) (h : isIdentStart c = true) :
    c ≠ '~' ∧ c ≠ '%' :=
  isIdentCont_ne_special c (isIdentStart_imp_cont c h)

theorem isDigit_ne_special (c : Char) (h : c.isDigit = true) :
    c ≠ '~' ∧ c ≠ '%' := by
  refine isIdentCont_ne_special c ?_
  simp [isIdentCont, Char.isAlphanum, h]

theorem consumesEwf_identifier : ConsumesEwf identifier := by
  intro s s' a h
  simp only [identifier] at h
  cases h1 : takeWhile1P isIdentStart s with
  | err s1 => rw [h1] at h; cases h
  | fail s1 => rw [h1] at h; cases h
  | ok s1 a1 =>
      rw [h1] at h
      dsimp only at h
      cases h2 : takeWhileP isIdentCont s1 with
      | err s2 => rw [h2] at h; cases h
      | fail s2 => rw [h2] at h; cases h
      | ok s2 a2 =>
          rw [h2] at h
          injection h with hA hB
          subst hA
          obtain ⟨X1, hX1, he1⟩ := consumesEwf_takeWhile1 isIdentStart
            isIdentStart_ne_special s s1 a1 h1
          obtain ⟨X2, hX2, he2⟩ := consumesEwf_takeWhile isIdentCont
            isIdentCont_ne_special s1 s2 a2 h2
          exact ⟨X1 ++ X2, by rw [hX1, hX2, List.append_assoc],
            ewf_append X1 X2 he1 he2⟩

theorem consumesEwf_parameter_text : ConsumesEwf parameter_text := by
  intro s s' a h
  simp only [parameter_text] at h
  cases h1 : takeWhile1P isIdentCont s with
  | err s1 => rw [h1] at h; cases h
  | fail s1 => rw [h1] at h; cases h
  | ok s1 a1 =>
      rw [h1] at h
      injection h with hA hB
      subst hA
      exact consumesEwf_takeWhile1 isIdentCont isIdentCont_ne_special s s1 a1 h1

theorem consumesEwf_percent : ConsumesEwf percent_encoding := by
  intro s s' a h
  simp only [percent_encoding] at h
  cases h1 : tagP ['%'] s with
  | err s1 => rw [h1] at h; cases h
  | fail s1 => rw [h1] at h; cases h
  | ok s1 a1 =>
      rw [h1] at h
      dsimp only at h
      cases h2 : cutP (takeWhileMN 2 2 isHexChar) s1 with
      | err s2 => rw [h2] at h; cases h
      | fail s2 => rw [h2] at h; cases h
      | ok s2 hex =>
          rw [h2] at h
          injection h with hA hB
          subst hA
          have h3 := cutP_ok_inv _ _ _ _ h2
          have hfacts : s1.rest = hex ++ s2.rest ∧ hex.length = 2 ∧
              (∀ c ∈ hex, isHexChar c = true) := by
            simp only [takeWhileMN] at h3
            split at h3
            next hlt => cases h3
            next hlt =>
              injection h3 with hB1 hB2
              subst hB1
              subst hB2
              have hpre : (s1.rest.takeWhile isHexChar).take 2 <+: s1.rest :=
                List.IsPrefix.trans (List.take_prefix _ _) (List.takeWhile_prefix _)
              have htake := List.prefix_iff_eq_take.mp hpre
              refine ⟨?_, ?_, ?_⟩
              · rw [show (s1.advance ((s1.rest.takeWhile isHexChar).take 2).length).rest
                  = s1.rest.drop ((s1.rest.takeWhile isHexChar).take 2).length from rfl]
                conv_lhs => rw [← List.take_append_drop
                  ((s1.rest.takeWhile isHexChar).take 2).length s1.rest]
                rw [← htake]
              · have hle : ((s1.rest.takeWhile isHexChar).take 2).length ≤ 2 := by
                  simp [List.length_take]
                omega
              · intro c hc
                exact List.mem_takeWhile_imp (List.take_subset _ _ hc)
          obtain ⟨hrest1, hlen2, hhex⟩ := hfacts
          obtain ⟨hr0, _⟩ := tagP_ok _ _ _ _ h1
          obtain ⟨c1, c2, rfl⟩ := List.length_eq_two.mp hlen2
          have hx1 := hhex c1 (by simp)
          have hx2 := hhex c2 (by simp)
          refine ⟨'%' :: [c1, c2], ?_, ?_⟩
          · rw [hr0, hrest1]
            rfl
          · rw [ewf_cons_step '%' [c1, c2] [] (by simp [ewfStep, hx1, hx2])]
            rfl

theorem consumesEwf_parameter_entity : ConsumesEwf parameter_entity := by
  intro s s' a h
  simp only [parameter_entity] at h
  cases h1 : tagP ['~'] s with
  | err s1 => rw [h1] at h; cases h
  | fail s1 => rw [h1] at h; cases h
  | ok s1 a1 =>
      rw [h1] at h
      have h2 := cutP_ok_inv _ _ _ _ h
      obtain ⟨hr0, _⟩ := tagP_ok _ _ _ _ h1
      simp only [altP] at h2
      cases h3 : tilde_entity s1 with
      | ok s2 a2 =>
          rw [h3] at h2
          injection h2 with hA hB
          subst hA
          simp only [tilde_entity] at h3
          cases h4 : tagP ['~'] s1 with
          | err s3 => rw [h4] at h3; cases h3
          | fail s3 => rw [h4] at h3; cases h3
          | ok s3 a3 =>
              rw [h4] at h3
              injection h3 with hC hD
              subst hC
              obtain ⟨hr1, _⟩ := tagP_ok _ _ _ _ h4
              refine ⟨['~', '~'], ?_, by decide⟩
              rw [hr0, hr1]
              rfl
      | fail s2 => rw [h3] at h2; dsimp only at h2; cases h2
      | err s2 =>
          rw [h3] at h2
          dsimp only at h2
          cases h5 : minus_entity s1 with
          | ok s3 a3 =>
              rw [h5] at h2
              injection h2 with hA hB
              subst hA
              simp only [minus_entity] at h5
              cases h6 : tagP ['_'] s1 with
              | err s4 => rw [h6] at h5; cases h5
              | fail s4 => rw [h6] at h5; cases h5
              | ok s4 a4 =>
                  rw [h6] at h5
                  injection h5 with hC hD
                  subst hC
                  obtain ⟨hr1, _⟩ := tagP_ok _ _ _ _ h6
                  refine ⟨['~', '_'], ?_, by decide⟩
                  rw [hr0, hr1]
                  rfl
          | fail s3 => rw [h5] at h2; dsimp only at h2; cases h2
          | err s3 =>
              rw [h5] at h2
              dsimp only at h2
              cases h7 : negative_number_entity s1 with
              | err s4 => rw [h7] at h2; cases h2
              | fail s4 => rw [h7] at h2; cases h2
              | ok s4 a4 =>
                  rw [h7] at h2
                  injection h2 with hA hB
                  subst hA
                  simp only [negative_number_entity, digit1P] at h7
                  cases h8 : takeWhile1P Char.isDigit s1 with
                  | err s5 => rw [h8] at h7; cases h7
                  | fail s5 => rw [h8] at h7; cases h7
                  | ok s5 ds =>
                      rw [h8] at h7
                      injection h7 with hC hD
                      subst hC
                      obtain ⟨hr1, hall, hne⟩ := takeWhile1P_ok _ _ _ _ h8
                      obtain ⟨d, ds2, rfl⟩ : ∃ d ds2, ds = d :: ds2 := by
                        cases hds : ds with
                        | nil => exact absurd hds hne
                        | cons d ds2 => exact ⟨d, ds2, rfl⟩
                      refine ⟨'~' :: d :: ds2, ?_, ?_⟩
                      · rw [hr0, hr1]
                        rfl
                      · rw [ewf_cons_step '~' (d :: ds2) ds2
                          (by simp [ewfStep, hall d (by simp)])]
                        exact ewf_of_no_special ds2 (fun c hc =>
                          isDigit_ne_special c (hall c (List.mem_cons_of_mem d hc)))

theorem consumesEwf_paramAlt :
    ConsumesEwf (altP [parameter_text, parameter_entity, percent_encoding]) := by
  apply consumesEwf_alt
  intro p hp
  simp only [List.mem_cons, List.not_mem_nil, or_false] at hp
  rcases hp with rfl | rfl | rfl
  · exact consumesEwf_parameter_text
  · exact consumesEwf_parameter_entity
  · exact consumesEwf_percent

theorem consumesEwf_parameter : ConsumesEwf parameter := by
  intro s s' a h
  simp only [parameter] at h
  cases hm : many0P (altP [parameter_text, parameter_entity, percent_encoding]) s with
  | err s1 => rw [hm] at h; cases h
  | fail s1 => rw [hm] at h; cases h
  | ok s1 par =>
      rw [hm] at h
      dsimp only at h
      cases hd : percentDecodeUtf8 (String.join par) with
      | some dec =>
          rw [hd] at h
          injection h with hA hB
          subst hA
          exact consumesEwf_many0 _ consumesEwf_paramAlt _ _ _ hm
      | none => rw [hd] at h; cases h

theorem consumesEwf_parse_action : ConsumesEwf parse_action := by
  intro s s' a h
  simp only [parse_action] at h
  cases h1 : identifier s with
  | err s1 => rw [h1] at h; cases h
  | fail s1 => rw [h1] at h; cases h
  | ok s1 name =>
      rw [h1] at h
      dsimp only at h
      cases h2 : many0P (pairP (tagP ['-']) parameter) s1 with
      | err s2 => rw [h2] at h; cases h
      | fail s2 => rw [h2] at h; cases h
      | ok s2 ps =>
          rw [h2] at h
          injection h with hA hB
          subst hA
          obtain ⟨X1, hX1, he1⟩ := consumesEwf_identifier s s1 name h1
          obtain ⟨X2, hX2, he2⟩ := consumesEwf_many0 _
            (consumesEwf_pair _ _ (consumesEwf_tag ['-'] (by decide))
              consumesEwf_parameter) s1 s2 ps h2
          exact ⟨X1 ++ X2, by rw [hX1, hX2, List.append_assoc],
            ewf_append X1 X2 he1 he2⟩

theorem consumesEwf_parse_action_path : ConsumesEwf parse_action_path :=
  consumesEwf_separatedList _ _ (consumesEwf_tag ['/'] (by decide))
    consumesEwf_parse_action

theorem consumesEwf_parse_action_path_nonempty :
    ConsumesEwf parse_action_path_nonempty :=
  consumesEwf_separatedNonemptyList _ _ (consumesEwf_tag ['/'] (by decide))
    consumesEwf_parse_action

theorem consumesEwf_parse_segment_header : ConsumesEwf parse_segment_header := by
  intro s s' a h
  simp only [parse_segment_header] at h
  cases h1 : parse_segment_indicator s with
  | err s1 => rw [h1] at h; cases h
  | fail s1 => rw [h1] at h; cases h
  | ok s1 level =>
      rw [h1] at h
      dsimp only at h
      cases h2 : optP parse_action s1 with
      | err s2 => rw [h2] at h; cases h
      | fail s2 => rw [h2] at h; cases h
      | ok s2 req =>
          rw [h2] at h
          have hX1 := consumesEwf_many1Count _ (consumesEwf_tag ['-'] (by decide))
            s s1 level h1
          have hX2 := consumesEwf_opt _ consumesEwf_parse_action s1 s2 req h2
          obtain ⟨X1, hX1e, he1⟩ := hX1
          obtain ⟨X2, hX2e, he2⟩ := hX2
          have hcomb : ∃ X, s.rest = X ++ s2.rest ∧ ewf X = true :=
            ⟨X1 ++ X2, by rw [hX1e, hX2e, List.append_assoc],
              ewf_append X1 X2 he1 he2⟩
          cases req with
          | some r =>
              dsimp only at h
              injection h with hA hB
              subst hA
              exact hcomb
          | none =>
              dsimp only at h
              injection h with hA hB
              subst hA
              exact hcomb

theorem consumesEwf_parse_segment_with_header :
    ConsumesEwf parse_segment_with_header := by
  intro s s' a h
  simp only [parse_segment_with_header] at h
  cases h1 : parse_segment_header s with
  | err s1 => rw [h1] at h; cases h
  | fail s1 => rw [h1] at h; cases h
  | ok s1 header =>
      rw [h1] at h
      dsimp only at h
      cases h2 : optP (pairP (tagP ['/']) parse_action_path) s1 with
      | err s2 => rw [h2] at h; cases h
      | fail s2 => rw [h2] at h; cases h
      | ok s2 q =>
          rw [h2] at h
          obtain ⟨X1, hX1e, he1⟩ := consumesEwf_parse_segment_header s s1 header h1
          obtain ⟨X2, hX2e, he2⟩ := consumesEwf_opt _
            (consumesEwf_pair _ _ (consumesEwf_tag ['/'] (by decide))
              consumesEwf_parse_action_path) s1 s2 q h2
          have hcomb : ∃ X, s.rest = X ++ s2.rest ∧ ewf X = true :=
            ⟨X1 ++ X2, by rw [hX1e, hX2e, List.append_assoc],
              ewf_append X1 X2 he1 he2⟩
          cases q with
          | some pr =>
              obtain ⟨fst, snd⟩ := pr
              dsimp only at h
              injection h with hA hB
              subst hA
              exact hcomb
          | none =>
              dsimp only at h
              injection h with hA hB
              subst hA
              exact hcomb

theorem consumesEwf_parse_segment_without_header :
    ConsumesEwf parse_segment_without_header := by
  intro s s' a h
  simp only [parse_segment_without_header] at h
  cases h1 : parse_action_path_nonempty s with
  | err s1 => rw [h1] at h; cases h
  | fail s1 => rw [h1] at h; cases h
  | ok s1 q =>
      rw [h1] at h
      injection h with hA hB
      subst hA
      exact consumesEwf_parse_action_path_nonempty s s1 q h1

theorem consumesEwf_parse_segment : ConsumesEwf parse_segment := by
  apply consumesEwf_alt
  intro p hp
  simp only [List.mem_cons, List.not_mem_nil, or_false] at hp
  rcases hp with rfl | rfl
  · exact consumesEwf_parse_segment_with_header
  · exact consumesEwf_parse_segment_without_header

theorem consumesEwf_parse_query : ConsumesEwf parse_query := by
  intro s s' a h
  simp only [parse_query] at h
  cases h1 : separatedListP (tagP ['/']) parse_segment s with
  | err s1 => rw [h1] at h; cases h
  | fail s1 => rw [h1] at h; cases h
  | ok s1 segs =>
      rw [h1] at h
      injection h with hA hB
      subst hA
      exact consumesEwf_separatedList _ _ (consumesEwf_tag ['/'] (by decide))
        consumesEwf_parse_segment s s1 segs h1

/-- C4: non-backtracking escape commit — a `~` that begins an escape without
a valid continuation (`~`, `_` or a digit), or a `%` not followed by exactly
two hex digits, makes `parameter` return a hard, positioned
`nom::Err::Failure` at the character after the escape head (never retrying a
later alternative); and no input containing a malformed escape is ever
accepted by either top-level parse function — the malformed text is never
passed through. -/
theorem C4_malformed_escape_commit :
    (∀ (s : Span) (r : List Char), s.rest = '~' :: r → tildeMalformed r = true →
      parameter s = PResult.fail (s.advance 1)) ∧
    (∀ (s : Span) (r : List Char), s.rest = '%' :: r → pctMalformed r = true →
      parameter s = PResult.fail (s.advance 1)) ∧
    (∀ t : String, ewf t.data = false →
      (∀ l, parse_query_simple t ≠ Except.ok l) ∧
      (∀ q, parse t ≠ Except.ok q)) := by
  refine ⟨parameter_tilde_commit, parameter_pct_commit, ?_⟩
  intro t hewf
  constructor
  · intro l hok
    simp only [parse_query_simple] at hok
    cases hr : parse_action_path (Span.initial t) with
    | err s1 => rw [hr] at hok; cases hok
    | fail s1 => rw [hr] at hok; cases hok
    | ok s1 l2 =>
        rw [hr] at hok
        dsimp only at hok
        by_cases hrest : s1.rest.length > 0
        · rw [if_pos hrest] at hok; cases hok
        · rw [if_neg hrest] at hok
          have hnil : s1.rest = [] := List.length_eq_zero.mp (by omega)
          obtain ⟨X, hX, hewfX⟩ := consumesEwf_parse_action_path (Span.initial t) s1 l2 hr
          rw [hnil, List.append_nil] at hX
          have hcontra : ewf t.data = true := by
            rw [show (Span.initial t).rest = t.data from rfl] at hX
            rw [hX]
            exact hewfX
          rw [hcontra] at hewf
          cases hewf
  · intro q hok
    simp only [parse] at hok
    cases hr : parse_query (Span.initial t) with
    | err s1 => rw [hr] at hok; cases hok
    | fail s1 => rw [hr] at hok; cases hok
    | ok s1 q2 =>
        rw [hr] at hok
        dsimp only at hok
        by_cases hrest : s1.rest.length > 0
        · rw [if_pos hrest] at hok; cases hok
        · rw [if_neg hrest] at hok
          have hnil : s1.rest = [] := List.length_eq_zero.mp (by omega)
          obtain ⟨X, hX, hewfX⟩ := consumesEwf_parse_query (Span.initial t) s1 q2 hr
          rw [hnil, List.append_nil] at hX
          have hcontra : ewf t.data = true := by
            rw [show (Span.initial t).rest = t.data from rfl] at hX
            rw [hX]
            exact hewfX
          rw [hcontra] at hewf
          cases hewf

/-- C4 (witness): the tilde commit on `~x` and the percent commit on `%2x`
yield hard failures positioned one character in, and the malformed input
`a-~x` is accepted by neither top-level parser. -/
theorem C4_malformed_escape_commit_witness :
    parameter (Span.initial "~x") = PResult.fail ⟨['~'], ['x']⟩ ∧
    parameter (Span.initial "%2x") = PResult.fail ⟨['%'], ['2', 'x']⟩ ∧
    parse_query_simple "a-~x" ≠ Except.ok [] ∧
    parse "a-~x" ≠ Except.ok { segments := [] } := by
  refine ⟨?_, ?_, ?_, ?_⟩
  · exact C4_malformed_escape_commit.1 (Span.initial "~x") ['x'] rfl (by decide)
  · exact C4_malformed_escape_commit.2.1 (Span.initial "%2x") ['2', 'x'] rfl (by decide)
  · exact (C4_malformed_escape_commit.2.2 "a-~x" (by decide)).1 []
  · exact (C4_malformed_escape_commit.2.2 "a-~x" (by decide)).2 { segments := [] }

end Liquers
